import Mathlib

/-!
Shallow embedding of the security core of the `deset` repository
(src/security/input-sanitizer.js, src/security/config-encryption.js,
src/security/package-integrity.js and the secure command-execution module),
together with proofs settling the frozen specification claims.

JavaScript strings are modelled as `List Char`; byte buffers as `List Nat`
(each entry a byte value).  Fallible functions (`throw`) are modelled with
`Except (List Char) α`, the error carrying the message.
-/

set_option maxHeartbeats 1000000

/-- JavaScript strings, modelled as lists of characters. -/
abbrev Str := List Char

/-- Shorthand: turn a Lean string literal into the `Str` model. -/
def toL (s : String) : Str := s.toList

/-- ASCII lower-casing of one character, the fragment of
`String.prototype.toLowerCase` relevant to the embedded deny-lists
(all deny-list entries are ASCII). -/
def jsLower (c : Char) : Char :=
  if 'A' ≤ c ∧ c ≤ 'Z' then Char.ofNat (c.toNat + 32) else c

/-- Characters removed by `String.prototype.trim` (ASCII fragment:
space, tab, line feed, vertical tab, form feed, carriage return). -/
def jsWs (c : Char) : Bool :=
  c = ' ' || c = '\t' || c = '\n' || c = '\r' || c.toNat = 11 || c.toNat = 12

/-- Model of `String.prototype.trim`: drop leading and trailing whitespace. -/
def jsTrim (s : Str) : Str :=
  ((s.dropWhile jsWs).reverse.dropWhile jsWs).reverse

/-- Boolean prefix test on character lists. -/
def isPre : Str → Str → Bool
  | [], _ => true
  | _ :: _, [] => false
  | a :: as, b :: bs => a == b && isPre as bs

/-- Model of `String.prototype.includes`: `pat` occurs as a contiguous substring of `s`. -/
def containsSub (s pat : Str) : Bool :=
  s.tails.any (fun t => isPre pat t)

theorem isPre_iff (p s : Str) : isPre p s = true ↔ ∃ t, p ++ t = s := by
  induction p generalizing s with
  | nil => simp [isPre]
  | cons a as ih =>
    cases s with
    | nil => simp [isPre]
    | cons b bs =>
      simp only [isPre, Bool.and_eq_true, beq_iff_eq, ih, List.cons_append,
        List.cons.injEq]
      constructor
      · rintro ⟨rfl, t, rfl⟩
        exact ⟨t, rfl, rfl⟩
      · rintro ⟨t, rfl, rfl⟩
        exact ⟨rfl, t, rfl⟩

theorem containsSub_iff (s pat : Str) :
    containsSub s pat = true ↔ ∃ pre suf, pre ++ pat ++ suf = s := by
  simp only [containsSub, List.any_eq_true, List.mem_tails, isPre_iff]
  constructor
  · rintro ⟨t, ⟨pre, rfl⟩, suf, rfl⟩
    exact ⟨pre, suf, by simp⟩
  · rintro ⟨pre, suf, rfl⟩
    exact ⟨pat ++ suf, ⟨pre, by simp⟩, suf, rfl⟩

/-- Substring occurrences survive `map`. -/
theorem containsSub_map (f : Char → Char) {s pat : Str}
    (h : containsSub s pat = true) :
    containsSub (s.map f) (pat.map f) = true := by
  rw [containsSub_iff] at h ⊢
  obtain ⟨pre, suf, rfl⟩ := h
  exact ⟨pre.map f, suf.map f, by simp⟩

/-- A substring whose first character is not whitespace survives
`dropWhile jsWs`. -/
theorem containsSub_dropWhile {s pat : Str} {c : Char} {cs : Str}
    (hpat : pat = c :: cs) (hc : jsWs c = false)
    (h : containsSub s pat = true) :
    containsSub (s.dropWhile jsWs) pat = true := by
  induction s with
  | nil => simp [containsSub, isPre, hpat] at h
  | cons a as ih =>
    by_cases ha : jsWs a = true
    · rw [List.dropWhile_cons_of_pos ha]
      apply ih
      rw [containsSub_iff] at h ⊢
      obtain ⟨pre, suf, hps⟩ := h
      cases pre with
      | nil =>
        exfalso
        rw [hpat] at hps
        simp only [List.nil_append, List.cons_append, List.cons.injEq] at hps
        rw [hps.1] at hc
        rw [hc] at ha
        exact Bool.false_ne_true ha
      | cons p ps =>
        simp only [List.cons_append, List.cons.injEq] at hps
        exact ⟨ps, suf, hps.2⟩
    · rw [List.dropWhile_cons_of_neg ha]
      exact h

/-- Substring occurrence is invariant under reversal (with the pattern
reversed as well). -/
theorem containsSub_reverse {s pat : Str}
    (h : containsSub s pat = true) :
    containsSub s.reverse pat.reverse = true := by
  rw [containsSub_iff] at h ⊢
  obtain ⟨pre, suf, rfl⟩ := h
  exact ⟨suf.reverse, pre.reverse, by simp⟩

/-- A substring all of whose characters are non-whitespace (it is enough
that the first and last are) survives `jsTrim`. -/
theorem containsSub_jsTrim {s pat : Str} {c d : Char} {cs : Str}
    (hpat : pat = c :: cs) (hc : jsWs c = false)
    (hlast : pat.getLast? = some d) (hd : jsWs d = false)
    (h : containsSub s pat = true) :
    containsSub (jsTrim s) pat = true := by
  unfold jsTrim
  have h1 : containsSub (s.dropWhile jsWs) pat = true :=
    containsSub_dropWhile hpat hc h
  have h2 : containsSub (s.dropWhile jsWs).reverse pat.reverse = true :=
    containsSub_reverse h1
  have hpr : ∃ ds, pat.reverse = d :: ds := by
    have : pat = pat.dropLast ++ [d] := by
      have := List.getLast?_eq_some_iff.mp hlast
      obtain ⟨l, hl⟩ := this
      rw [hl]; simp
    rw [this]; simp
  obtain ⟨ds, hds⟩ := hpr
  have h3 : containsSub ((s.dropWhile jsWs).reverse.dropWhile jsWs)
      pat.reverse = true := containsSub_dropWhile hds hd h2
  have h4 := containsSub_reverse h3
  simpa using h4

/-! ## Validator (src/security/input-sanitizer.js) -/

namespace InputSanitizer

/-- The backtick character. -/
def btk : Char := Char.ofNat 96

/-- The opening curly-brace character. -/
def lbr : Char := Char.ofNat 123

/-- Deny-list of `sanitizePackageName`
(source: `dangerousPatterns`, input-sanitizer.js lines 33-63). -/
def dangerousPatterns : List Str :=
  [ toL "|", toL ";", toL "&", toL "&&", toL "||", toL "$", [btk], toL "$(",
    ['$', lbr], toL "../", toL "..\\", toL "/./", toL "\\.\\", toL "//",
    toL "\\\\", toL "file://", toL "http://", toL "https://", toL "ftp://",
    toL "data:", toL "curl", toL "wget", toL "bash", toL "powershell",
    toL "base64", toL "whoami", toL "rm ", toL "del ", toL "format" ]

/-- The class `[a-z]`. -/
def isLowerAZ (c : Char) : Bool := 'a' ≤ c && c ≤ 'z'

/-- The class `[0-9]`. -/
def isDigitC (c : Char) : Bool := '0' ≤ c && c ≤ '9'

/-- First character class of the npm scope part: `[a-z0-9-*~]`. -/
def scopeFirst (c : Char) : Bool :=
  isLowerAZ c || isDigitC c || c = '-' || c = '*' || c = '~'

/-- Remaining character class of the npm scope part: `[a-z0-9-*._~]`. -/
def scopeRest (c : Char) : Bool := scopeFirst c || c = '.' || c = '_'

/-- First character class of the npm name part: `[a-z0-9-~]`. -/
def nameFirst (c : Char) : Bool :=
  isLowerAZ c || isDigitC c || c = '-' || c = '~'

/-- Remaining character class of the npm name part: `[a-z0-9-._~]`. -/
def nameRest (c : Char) : Bool := nameFirst c || c = '.' || c = '_'

/-- Matches `[a-z0-9-~][a-z0-9-._~]*` against the whole list. -/
def matchNamePart : Str → Bool
  | [] => false
  | c :: rest => nameFirst c && rest.all nameRest

/-- Split at the first `/`, returning the parts before and after it. -/
def breakAtSlash : Str → Option (Str × Str)
  | [] => none
  | c :: rest =>
    if c = '/' then some ([], rest)
    else (breakAtSlash rest).map (fun p => (c :: p.1, p.2))

/-- The npm-name regular expression
`^(?:@[a-z0-9-*~][a-z0-9-*._~]*\/)?[a-z0-9-~][a-z0-9-._~]*$`
(input-sanitizer.js line 84).  Since neither character class contains `/`,
the scope part (when the string starts with `@`) must end at the first
slash, so splitting there is faithful to the regex. -/
def validNamePattern (s : Str) : Bool :=
  match s with
  | '@' :: rest =>
    match breakAtSlash rest with
    | none => false
    | some (scope, nm) =>
      (match scope with
       | [] => false
       | c :: cs => scopeFirst c && cs.all scopeRest) && matchNamePart nm
  | _ => matchNamePart s

/-- Regex word character `[A-Za-z0-9_]`. -/
def isWordChar (c : Char) : Bool :=
  isLowerAZ c || ('A' ≤ c && c ≤ 'Z') || isDigitC c || c = '_'

/-- Whether `pat` matches at the head of `s` with a `\b` boundary on both sides;
`prev` is the character immediately before this position (if any). -/
def boundedHere (pat s : Str) (prev : Option Char) : Bool :=
  isPre pat s &&
  (match prev with | none => true | some c => !isWordChar c) &&
  (match s.drop pat.length with | [] => true | c :: _ => !isWordChar c)

/-- Scan helper for `hasBounded`. -/
def hasBoundedAux (pat : Str) : Option Char → Str → Bool
  | prev, [] => boundedHere pat [] prev
  | prev, c :: rest => boundedHere pat (c :: rest) prev ||
      hasBoundedAux pat (some c) rest

/-- Whether `\b pat \b` occurs somewhere in `s` (regex test of the source's
`shellPatterns`, matched case-insensitively by lowering `s` first). -/
def hasBounded (pat s : Str) : Bool := hasBoundedAux pat none s

/-- Suspicious name prefixes (input-sanitizer.js line 90). -/
def suspiciousPrefixes : List Str :=
  [ toL "node_modules", toL ".git", toL ".env", toL "etc/", toL "usr/",
    toL "var/", toL "tmp/" ]

/-- Model of `sanitizePackageName` (input-sanitizer.js lines 16-98).  The source
throws `Error` objects whose messages interpolate the offending pattern;
here each rejection site carries a fixed message naming the rule class,
which is all any caller of the module inspects. -/
def sanitizePackageName (packageName : Str) : Except Str Str :=
  if (jsTrim packageName).length = 0 then
    .error (toL "Package name cannot be empty")
  else if 214 < (jsTrim packageName).length then
    .error (toL "Package name too long (max 214 characters)")
  else if dangerousPatterns.any
      (fun pat =>
        containsSub ((jsTrim packageName).map jsLower) (pat.map jsLower)) then
    .error (toL "Dangerous pattern detected")
  else if hasBounded (toL "sh") ((jsTrim packageName).map jsLower) ||
      hasBounded (toL "cmd") ((jsTrim packageName).map jsLower) then
    .error (toL "Dangerous pattern detected")
  else if !(validNamePattern (jsTrim packageName)) then
    .error (toL "Invalid package name format")
  else if suspiciousPrefixes.any
      (fun p => isPre p ((jsTrim packageName).map jsLower)) then
    .error (toL "Package name cannot start with suspicious prefix")
  else .ok (jsTrim packageName)

/-- Deny-list of `sanitizeCommandArgs`
(source: `dangerousPatterns`, input-sanitizer.js lines 197-234). -/
def argDangerousPatterns : List Str :=
  [ toL ";", toL "|", toL "&", toL "&&", toL "||", [btk], toL "$(", toL "$()",
    ['$', lbr], toL ">", toL ">>", toL "<", toL "<<", toL "\n", toL "\r",
    toL "\t", toL "\\", toL "rm ", toL "del ", toL "format ", toL "mkfs",
    toL "dd ", toL "wget ", toL "curl ", toL "nc ", toL "netcat",
    toL "telnet", toL "ssh", toL "ftp", toL "..", toL "~", toL "/etc/",
    toL "/tmp/", toL "eval", toL "exec", toL "system" ]

/-- Per-argument body of `sanitizeCommandArgs`
(input-sanitizer.js lines 189-247). -/
def sanitizeArg (arg : Str) : Except Str Str :=
  if argDangerousPatterns.any
      (fun pat => containsSub ((jsTrim arg).map jsLower) (pat.map jsLower)) then
    .error (toL "Dangerous pattern detected in command argument")
  else if 1000 < (jsTrim arg).length then
    .error (toL "Command argument too long")
  else .ok (jsTrim arg)

/-- Model of `sanitizeCommandArgs` (input-sanitizer.js lines 186-249): `args.map`
with a throwing callback, so the first offending argument aborts the
whole call. -/
def sanitizeCommandArgs : List Str → Except Str (List Str)
  | [] => .ok []
  | a :: rest =>
    match sanitizeArg a with
    | .error e => .error e
    | .ok s =>
      match sanitizeCommandArgs rest with
      | .error e => .error e
      | .ok ss => .ok (s :: ss)

end InputSanitizer

/-! ## RateLimiter (src/security/input-sanitizer.js lines 318-371) -/

/-- Association-list lookup, modelling `Map.prototype.get`. -/
def lookupAL : List (String × List Int) → String → Option (List Int)
  | [], _ => none
  | (k, v) :: rest, id => if k = id then some v else lookupAL rest id

/-- Association-list update, modelling `Map.prototype.set`: replace the
value of an existing key in place, or append a new entry at the end. -/
def setAL : List (String × List Int) → String → List Int → List (String × List Int)
  | [], id, v => [(id, v)]
  | (k, w) :: rest, id, v =>
    if k = id then (k, v) :: rest else (k, w) :: setAL rest id v

/-- The "clean old entries" loop of `isAllowed`: filter every identifier's
timestamps, deleting identifiers whose list becomes empty. -/
def pruneMap (windowStart : Int) (m : List (String × List Int)) :
    List (String × List Int) :=
  m.filterMap (fun kv =>
    if (kv.2.filter (fun ts => windowStart < ts)).isEmpty then none
    else some (kv.1, kv.2.filter (fun ts => windowStart < ts)))

/-- The `RateLimiter` instance state: `(maxRequests, windowMs)` plus the
identifier → timestamps map. -/
structure RateLimiter where
  maxRequests : Nat
  windowMs : Int
  requests : List (String × List Int)

/-- Model of `RateLimiter.isAllowed` (input-sanitizer.js lines 330-356), with the
clock reading `now` passed explicitly.  Returns the decision and the
updated limiter. -/
def RateLimiter.isAllowed (rl : RateLimiter) (now : Int) (id : String) :
    Bool × RateLimiter :=
  if rl.maxRequests ≤
      ((((lookupAL (pruneMap (now - rl.windowMs) rl.requests) id).getD
        []).filter (fun ts => now - rl.windowMs < ts)).length) then
    (false, { rl with requests := pruneMap (now - rl.windowMs) rl.requests })
  else
    (true,
     { rl with
        requests :=
          setAL (pruneMap (now - rl.windowMs) rl.requests) id
            ((((lookupAL (pruneMap (now - rl.windowMs) rl.requests) id).getD
              []).filter (fun ts => now - rl.windowMs < ts)) ++ [now]) })

/-- Run a sequence of `isAllowed` calls for one identifier at the given
clock readings, collecting the decisions. -/
def runSeq : RateLimiter → String → List Int → List Bool × RateLimiter
  | rl, _, [] => ([], rl)
  | rl, id, t :: ts =>
    ((rl.isAllowed t id).1 :: (runSeq (rl.isAllowed t id).2 id ts).1,
     (runSeq (rl.isAllowed t id).2 id ts).2)

/-! ## Secure command execution (the `execSecure` module) -/

namespace SecureCommand

/-- The `ALLOWED_COMMANDS` whitelist (secure command module line 22). -/
def ALLOWED_COMMANDS : List Str :=
  [toL "npm", toL "node", toL "git", toL "yarn", toL "pnpm"]

/-- The validation phase of `execSecure` (lines 35-54): everything that
runs before `spawn` is reached.  `.ok (cmd, args)` means control reaches
the `spawn(sanitizedCommand, sanitizedArgs, ...)` call with those values;
every `.error` is a rejection thrown before any process is spawned. -/
def execSecurePre (command : Str) (args : List Str) :
    Except Str (Str × List Str) :=
  if (jsTrim command).isEmpty then
    .error (toL "Command must be a non-empty string")
  else if !(ALLOWED_COMMANDS.contains (jsTrim command)) then
    .error (toL "Command not allowed: " ++ jsTrim command)
  else
    match InputSanitizer.sanitizeCommandArgs args with
    | .error e => .error (toL "Invalid command arguments: " ++ e)
    | .ok sa => .ok (jsTrim command, sa)

/-- The rejection message produced when `execSecure` hits its timeout
(line 128): `Command timed out after ${timeout}ms`. -/
def timeoutMessage (t : Nat) : Str :=
  toL "Command timed out after " ++ toL (toString t) ++ toL "ms"

/-- The rejection message for the 1 MiB output cap (line 102). -/
def outputTooLargeMessage : Str := toL "Command output too large (max 1MB)"

/-- The `execWithRetry` terminal-error test (lines 237-241):
`error.message.includes('not allowed') || includes('timeout') ||
includes('too large')`. -/
def nonRetriableMsg (m : Str) : Bool :=
  containsSub m (toL "not allowed") || containsSub m (toL "timeout") ||
  containsSub m (toL "too large")

/-- Loop body of `execWithRetry` (lines 227-253).  `fn k` is the outcome
of the `k`-th attempt (1-based); `left` is the number of loop iterations
remaining.  Returns the final outcome, the number of attempts actually
made, and the list of backoff delays slept (`baseDelay * 2^(attempt-1)`
before each retry). -/
def ewrAux {α : Type} (fn : Nat → Except Str α) (baseDelay : Nat) :
    Nat → Nat → Except Str α × Nat × List Nat
  | _, 0 => (.error (toL "undefined"), 0, [])
  | attempt, left + 1 =>
    match fn attempt with
    | .ok v => (.ok v, 1, [])
    | .error e =>
      if nonRetriableMsg e then (.error e, 1, [])
      else
        match left with
        | 0 => (.error e, 1, [])
        | l + 1 =>
          let r := ewrAux fn baseDelay (attempt + 1) (l + 1)
          (r.1, r.2.1 + 1, baseDelay * 2 ^ (attempt - 1) :: r.2.2)

/-- Model of `execWithRetry(commandFn, maxRetries, baseDelay)` (lines 227-253),
with the successive attempt outcomes supplied by `fn`. -/
def execWithRetry {α : Type} (fn : Nat → Except Str α)
    (maxRetries baseDelay : Nat) : Except Str α × Nat × List Nat :=
  ewrAux fn baseDelay 1 maxRetries

end SecureCommand

/-! ## IntegrityScorer (src/security/package-integrity.js lines 318-331) -/

namespace PackageIntegrity

open InputSanitizer (isLowerAZ isDigitC)

/-- Alternatives of the regex `/admin|root|sudo|exec|eval|system/i`. -/
def privilegedWords : List Str :=
  [toL "admin", toL "root", toL "sudo", toL "exec", toL "eval", toL "system"]

/-- Alternatives of the regex `/hack|crack|exploit|payload/i`. -/
def maliciousWords : List Str :=
  [toL "hack", toL "crack", toL "exploit", toL "payload"]

/-- Case-insensitive substring test (a `/word/i` regex test). -/
def containsCI (s w : Str) : Bool :=
  containsSub (s.map jsLower) (w.map jsLower)

/-- The regex `/[0-9]{4,}/`: four or more consecutive digits occur. -/
def hasDigitRun4 (s : Str) : Bool :=
  s.tails.any (fun t =>
    match t with
    | d1 :: d2 :: d3 :: d4 :: _ =>
      isDigitC d1 && isDigitC d2 && isDigitC d3 && isDigitC d4
    | _ => false)

/-- The regex `/^[a-z]-[a-z]$/`. -/
def singleLetterPat (s : Str) : Bool :=
  match s with
  | [a, h, b] => isLowerAZ a && h = '-' && isLowerAZ b
  | _ => false

/-- The regex `/crypto.*(?:miner|mining)/i`: an occurrence of `crypto`
followed (anywhere later) by `miner` or `mining`, case-insensitively. -/
def cryptoMinerPat (s : Str) : Bool :=
  (s.map jsLower).tails.any (fun t =>
    isPre (toL "crypto") t &&
    (containsSub (t.drop 6) (toL "miner") ||
     containsSub (t.drop 6) (toL "mining")))

/-- Model of `PackageIntegrityChecker.isSuspiciousPackageName`
(package-integrity.js lines 318-331): true iff some pattern of
`suspiciousPatterns` matches.  `/l{2,}/` and `/o{2,}/` (case-sensitive)
match exactly when `ll` (resp. `oo`) occurs as a substring. -/
def isSuspiciousPackageName (name : Str) : Bool :=
  containsSub name (toL "ll") || containsSub name (toL "oo") ||
  hasDigitRun4 name || singleLetterPat name ||
  privilegedWords.any (containsCI name) ||
  maliciousWords.any (containsCI name) ||
  cryptoMinerPat name

/-- From the spec's words: the name contains a run of 2 or more repeated
letters (two equal adjacent letters). -/
def specLetterRun2 (s : Str) : Bool :=
  s.tails.any (fun t =>
    match t with
    | a :: b :: _ => a.isAlpha && a = b
    | _ => false)

end PackageIntegrity

/-! ## ConfigCrypto (src/security/config-encryption.js)

`SecureConfig.encrypt` calls Node's `crypto.createCipheriv('aes-256-cbc',
key, iv)`: CBC mode with PKCS#7 padding over the AES-256 block cipher.
The mode and padding are embedded concretely below; the keyed AES block
permutation itself is an external primitive and enters as a
`BlockCipher` parameter (`enc`/`dec` on 16-byte blocks).  Ciphertext is
hex-encoded in the source; hex is a bijection on byte strings, so bytes
are modelled directly.  The "integrity tag" is an unkeyed SHA-256 of the
ciphertext (line 61), likewise abstract. -/

namespace ConfigEncryption

/-- The keyed AES-256 block permutation and its inverse (external
primitive of Node's `crypto`). -/
structure BlockCipher where
  enc : List Nat → List Nat
  dec : List Nat → List Nat

/-- Statement that `C` behaves as a block cipher: on 16-byte blocks, `enc` produces
16-byte blocks, `dec` inverts it, and `dec` preserves 16-byte length. -/
def GoodCipher (C : BlockCipher) : Prop :=
  ∀ b : List Nat, b.length = 16 →
    (C.enc b).length = 16 ∧ C.dec (C.enc b) = b ∧ (C.dec b).length = 16

/-- PKCS#7 padding to a multiple of 16 bytes (always appends at least
one byte). -/
def pad16 (p : List Nat) : List Nat :=
  p ++ List.replicate (16 - p.length % 16) (16 - p.length % 16)

/-- PKCS#7 unpadding with full validation, as OpenSSL performs in
`decipher.final()`: the last byte `k` must be in `[1,16]`, not exceed
the data length, and the last `k` bytes must all equal `k`; otherwise
decryption throws (`bad decrypt`). -/
def unpad16 (p : List Nat) : Option (List Nat) :=
  match p.getLast? with
  | none => none
  | some k =>
    if 1 ≤ k ∧ k ≤ 16 ∧ k ≤ p.length ∧ (p.drop (p.length - k)).all (· = k)
    then some (p.take (p.length - k)) else none

/-- Byte-wise XOR of two equal-length blocks. -/
def xorBytes (a b : List Nat) : List Nat :=
  List.zipWith (fun x y => x ^^^ y) a b

/-- Split a byte list into 16-byte blocks (fuelled structural recursion;
any fuel ≥ the block count gives the full chunking). -/
def chunkB : Nat → List Nat → List (List Nat)
  | 0, _ => []
  | _ + 1, [] => []
  | f + 1, c :: rest =>
    (c :: rest).take 16 :: chunkB f ((c :: rest).drop 16)

/-- CBC encryption of a block sequence with chaining value `prev`
(initially the IV). -/
def cbcEncB (C : BlockCipher) : List Nat → List (List Nat) → List (List Nat)
  | _, [] => []
  | prev, b :: bs =>
    C.enc (xorBytes prev b) :: cbcEncB C (C.enc (xorBytes prev b)) bs

/-- CBC decryption of a ciphertext block sequence with chaining value
`prev` (initially the IV). -/
def cbcDecB (C : BlockCipher) : List Nat → List (List Nat) → List (List Nat)
  | _, [] => []
  | prev, c :: cs => xorBytes prev (C.dec c) :: cbcDecB C c cs

/-- The blob produced by `SecureConfig.encrypt` (lines 64-69):
`{encrypted, iv, tag, algorithm}`.  `algorithm` is `Option` so that a
blob with the field absent can be expressed. -/
structure EncryptedBlob where
  encrypted : List Nat
  iv : List Nat
  tag : List Nat
  algorithm : Option Str

/-- The `SecureConfig` instance state: `cipher = none` models
`this.encryptionKey === null` (key not initialized); `some C` models an
initialized key, with `C` the AES-256 permutation under the (possibly
scrypt-derived) 32-byte key.  `hash` is the SHA-256 digest used for the
dummy tag. -/
structure SecureConfig where
  cipher : Option BlockCipher
  hash : List Nat → List Nat

/-- The `ALGORITHM` constant (line 11). -/
def ALGORITHM : Str := toL "aes-256-gcm"

/-- Model of `SecureConfig.encrypt` (lines 44-70); `iv` is the fresh
`crypto.randomBytes(16)` value, passed explicitly. -/
def SecureConfig.encrypt (sc : SecureConfig) (iv : List Nat)
    (plaintext : List Nat) : Except Str EncryptedBlob :=
  match sc.cipher with
  | none => .error (toL "Encryption key not initialized")
  | some C =>
    .ok { encrypted := (cbcEncB C iv
            (chunkB (pad16 plaintext).length (pad16 plaintext))).flatten,
          iv := iv,
          tag := sc.hash ((cbcEncB C iv
            (chunkB (pad16 plaintext).length (pad16 plaintext))).flatten),
          algorithm := some ALGORITHM }

/-- JavaScript truthiness of the blob's `algorithm` field: `undefined`
(absent) and the empty string are falsy. -/
def algTruthy : Option Str → Bool
  | none => false
  | some s => !s.isEmpty

/-- Model of `SecureConfig.decrypt` (lines 75-97).  The tag field is not read
anywhere; the only integrity check is the CBC padding validation
performed by `decipher.final()` (a non-multiple-of-16 or empty
ciphertext fails at block level first). -/
def SecureConfig.decrypt (sc : SecureConfig) (blob : EncryptedBlob) :
    Except Str (List Nat) :=
  match sc.cipher with
  | none => .error (toL "Encryption key not initialized")
  | some C =>
    if algTruthy blob.algorithm && blob.algorithm ≠ some ALGORITHM then
      .error (toL "Unsupported encryption algorithm")
    else if blob.encrypted.length = 0 ∨ blob.encrypted.length % 16 ≠ 0 then
      .error (toL "wrong final block length")
    else
      match unpad16 ((cbcDecB C blob.iv
          (chunkB blob.encrypted.length blob.encrypted)).flatten) with
      | some p => .ok p
      | none => .error (toL "bad decrypt")

/-- Tampering: flip the lowest bit of the first ciphertext byte. -/
def tamperFirst : List Nat → List Nat
  | [] => []
  | b :: rest => (b ^^^ 1) :: rest

/-- A concrete instantiation of the block-cipher parameter (the identity
permutation), used to evaluate the model at concrete inputs. -/
def idCipher : BlockCipher := { enc := id, dec := id }

theorem idCipher_good : GoodCipher idCipher := by
  intro b hb
  exact ⟨hb, rfl, hb⟩

end ConfigEncryption

/-! ## sanitizeFilePath (src/security/input-sanitizer.js lines 107-178) -/

namespace InputSanitizer

/-- Split a character list on `/`. -/
def splitSlash : Str → List Str
  | [] => [[]]
  | c :: rest =>
    let r := splitSlash rest
    if c = '/' then [] :: r
    else
      match r with
      | [] => [[c]]
      | h :: t => (c :: h) :: t

/-- POSIX path normalization over segments: drop empty and `.` segments,
let `..` pop the previous segment (at the root it pops nothing). -/
def normSegs (l : List Str) : List Str :=
  l.foldl
    (fun acc seg =>
      if seg = [] ∨ seg = ['.'] then acc
      else if seg = ['.', '.'] then acc.dropLast
      else acc ++ [seg])
    []

/-- Rebuild an absolute path from segments (`/` for the empty list). -/
def joinSegs (l : List Str) : Str := '/' :: List.intercalate ['/'] l

/-- POSIX `path.resolve(base, p)` for an absolute `base` (the only case
the claims exercise; a relative `base` would first be resolved against
the process working directory). -/
def pathResolve (base p : Str) : Str :=
  if p.head? = some '/' then joinSegs (normSegs (splitSlash p))
  else joinSegs (normSegs (splitSlash (base ++ '/' :: p)))

/-- POSIX `path.resolve(base)` for an absolute `base`. -/
def pathResolveOne (base : Str) : Str := joinSegs (normSegs (splitSlash base))

/-- The part of `s` after the final `/` of `s` (`path.basename` when `s` has a
directory part). -/
def afterLastSlash (s : Str) : Str := (s.reverse.takeWhile (· ≠ '/')).reverse

/-- POSIX `path.extname`: the suffix of the basename from its last `.`,
or empty when there is no dot or the only dot is the leading character.
By construction the result is empty or starts with `.`. -/
def extname (s : Str) : Str :=
  if (afterLastSlash s).length ≤
      ((afterLastSlash s).reverse.takeWhile (· ≠ '.')).length + 1 then []
  else '.' :: ((afterLastSlash s).reverse.takeWhile (· ≠ '.')).reverse

/-- Whether `s` ends with `suf`. -/
def endsWith (s suf : Str) : Bool := isPre suf.reverse s.reverse

/-- Elements of the character-class patterns below: a literal character,
or the class `[/\\]`. -/
inductive PatElem where
  | lit (c : Char)
  | slash

/-- Match a pattern-element list at the head of `s`. -/
def matchElems : List PatElem → Str → Bool
  | [], _ => true
  | .lit c :: ps, x :: xs => x = c && matchElems ps xs
  | .slash :: ps, x :: xs => (x = '/' || x = '\\') && matchElems ps xs
  | _ :: _, [] => false

/-- The pattern occurs somewhere in `s`. -/
def containsPat (p : List PatElem) (s : Str) : Bool :=
  s.tails.any (matchElems p)

/-- Literal pattern elements from a character list. -/
def lits (w : Str) : List PatElem := w.map .lit

/-- The regex `/\.git(?![/\\]workflows)/i` on an already-lowercased string: an
occurrence of `.git` not immediately followed by `/workflows` or
`\workflows`. -/
def gitLookahead (s : Str) : Bool :=
  s.tails.any (fun t =>
    isPre (toL ".git") t &&
    !(isPre (toL "/workflows") (t.drop 4) ||
      isPre (toL "\\workflows") (t.drop 4)))

/-- The `forbiddenPatterns` regex array (input-sanitizer.js lines
133-145), tested against the resolved path; all but the last carry the
`i` flag. -/
def forbiddenPath (resolved : Str) : Bool :=
  containsSub (resolved.map jsLower) (toL "node_modules") ||
  gitLookahead (resolved.map jsLower) ||
  endsWith (resolved.map jsLower) (toL ".env") ||
  containsSub (resolved.map jsLower) (toL ".ssh") ||
  containsSub (resolved.map jsLower) (toL ".aws") ||
  containsSub (resolved.map jsLower) (toL ".docker") ||
  containsPat (.slash :: lits (toL "etc") ++ [.slash]) (resolved.map jsLower) ||
  containsPat (.slash :: (lits (toL "usr") ++ [.slash] ++ lits (toL "bin")))
    (resolved.map jsLower) ||
  containsPat (.slash :: (lits (toL "var") ++ [.slash] ++ lits (toL "log")))
    (resolved.map jsLower) ||
  containsPat (.slash :: lits (toL "tmp") ++ [.slash]) (resolved.map jsLower) ||
  containsPat (lits (toL "..") ++ [.slash] ++ lits (toL "..")) resolved

/-- The `allowedExtensions` list (input-sanitizer.js lines 155-171). -/
def allowedExtensions : List Str :=
  [ toL ".js", toL ".json", toL ".md", toL ".txt", toL ".yml", toL ".yaml",
    toL ".ts", toL ".jsx", toL ".tsx", toL ".css", toL ".html", toL ".xml",
    toL ".gitignore", toL ".eslintrc", toL ".prettierrc" ]

/-- Model of `sanitizeFilePath` (input-sanitizer.js lines 107-178).  The final
`if` reproduces the source condition verbatim:
`ext && !allowedExtensions.includes(ext) && !ext.startsWith('.')`. -/
def sanitizeFilePath (filePath baseDir : Str) : Except Str Str :=
  if (jsTrim filePath).length = 0 then .error (toL "File path cannot be empty")
  else if 260 < (jsTrim filePath).length then
    .error (toL "File path too long (max 260 characters)")
  else if ¬(isPre (pathResolveOne baseDir ++ ['/'])
        (pathResolve baseDir (jsTrim filePath)) = true) ∧
      pathResolve baseDir (jsTrim filePath) ≠ pathResolveOne baseDir then
    .error (toL "File path outside allowed directory")
  else if forbiddenPath (pathResolve baseDir (jsTrim filePath)) then
    .error (toL "Access to forbidden path")
  else if (extname (pathResolve baseDir (jsTrim filePath))).map jsLower ≠ [] ∧
      ¬(allowedExtensions.contains
          ((extname (pathResolve baseDir (jsTrim filePath))).map jsLower)) ∧
      ¬(isPre (toL ".")
          ((extname (pathResolve baseDir (jsTrim filePath))).map jsLower) = true) then
    .error (toL "File extension not allowed")
  else .ok (pathResolve baseDir (jsTrim filePath))

end InputSanitizer

/-! ## Spec-side definitions and concrete evaluation constants -/

/-- The five metacharacters named by the spec's testable property:
`;`, `|`, `&`, backtick, `$(`. -/
def specMetaPatterns : List Str :=
  [toL ";", toL "|", toL "&", [InputSanitizer.btk], toL "$("]

/-- From the spec's words: a run of 2 or more copies of the character
`c` occurs in `s` (two equal adjacent occurrences). -/
def specRun2 (c : Char) (s : Str) : Bool :=
  s.tails.any (fun t =>
    match t with
    | a :: b :: _ => a = c && b = c
    | _ => false)

namespace ConfigEncryption

/-- Trivial stand-in for the SHA-256 digest in concrete evaluations (the
tag value is never read by `decrypt`). -/
def zeroHash : List Nat → List Nat := fun _ => []

/-- Concrete `SecureConfig` with an initialized key, used to evaluate
the model: the block-cipher parameter is instantiated with `idCipher`. -/
def scW : SecureConfig := { cipher := some idCipher, hash := zeroHash }

/-- Concrete IV for evaluations. -/
def ivW : List Nat := List.replicate 16 0

/-- Concrete 31-byte plaintext for evaluations. -/
def pW : List Nat := List.range 31

/-- The blob `scW.encrypt ivW pW` produces. -/
def blobW : EncryptedBlob :=
  match SecureConfig.encrypt scW ivW pW with
  | .ok b => b
  | .error _ => { encrypted := [], iv := [], tag := [], algorithm := none }

/-- The blob `blobW` with one bit of the first ciphertext byte flipped. -/
def tamperedW : EncryptedBlob :=
  { blobW with encrypted := tamperFirst blobW.encrypted }

/-- What `decrypt` returns on the tampered blob. -/
def qW : List Nat :=
  match SecureConfig.decrypt scW tamperedW with
  | .ok q => q
  | .error _ => []

end ConfigEncryption

/-! ## Claim C7: execWithRetry versus the timeout message -/

/-- C7: claimed — `execWithRetry` never retries timeouts.  In the code,
`execSecure` rejects timeouts with the message `Command timed out after
Xms`, which does not contain the substring `timeout` that
`execWithRetry` tests for, so a timeout failure IS retried: with
`maxRetries = 3` and `baseDelay = 1000` a constantly-timing-out command
is attempted 3 times with backoff delays 1000 ms and 2000 ms, instead of
propagating from the first attempt. -/
theorem C7_timeout_is_retried :
    SecureCommand.nonRetriableMsg (SecureCommand.timeoutMessage 30000) = false ∧
    SecureCommand.execWithRetry
        (fun _ => (Except.error (SecureCommand.timeoutMessage 30000) :
          Except Str Unit)) 3 1000
      = (.error (SecureCommand.timeoutMessage 30000), 3, [1000, 2000]) := by
  exact ⟨rfl, rfl⟩

/-! ## Claim C8: isSuspiciousPackageName -/

/-- C8 counterexample: the claim says every name containing a run of 2
or more repeated letters is flagged, and also that `express` is not
flagged — but `express` contains the repeated-letter run `ss`, so the
claim as stated is contradicted by the code (which only looks for runs
of `l` and of `o`). -/
theorem C8_counterexample :
    PackageIntegrity.specLetterRun2 (toL "express") = true ∧
    PackageIntegrity.isSuspiciousPackageName (toL "express") = false := by
  exact ⟨rfl, rfl⟩

/-- A run of two equal adjacent copies of `c` is the same thing as the
substring `[c, c]`. -/
theorem specRun2_eq_containsSub (c : Char) (s : Str) :
    specRun2 c s = containsSub s [c, c] := by
  unfold specRun2 containsSub
  congr 1
  funext t
  match t with
  | [] => rfl
  | [a] => simp [isPre]
  | a :: b :: r =>
    simp only [isPre, Bool.and_true]
    rw [Bool.eq_iff_iff]
    simp only [Bool.and_eq_true, decide_eq_true_eq, beq_iff_eq]
    exact ⟨fun h => ⟨h.1.symm, h.2.symm⟩, fun h => ⟨h.1.symm, h.2.symm⟩⟩

/-- C8 amended: `isSuspiciousPackageName` returns true for every name
with a run of 2 or more consecutive `l`s or `o`s (not arbitrary
letters), a run of 4 or more digits, or a privileged/malicious keyword,
and returns false for the known-good names `lodash` and `express`. -/
theorem C8_amended :
    (∀ name : Str, specRun2 'l' name = true ∨ specRun2 'o' name = true →
        PackageIntegrity.isSuspiciousPackageName name = true) ∧
    (∀ name : Str, PackageIntegrity.hasDigitRun4 name = true →
        PackageIntegrity.isSuspiciousPackageName name = true) ∧
    (∀ name : Str,
        PackageIntegrity.privilegedWords.any (PackageIntegrity.containsCI name) = true ∨
        PackageIntegrity.maliciousWords.any (PackageIntegrity.containsCI name) = true →
        PackageIntegrity.isSuspiciousPackageName name = true) ∧
    PackageIntegrity.isSuspiciousPackageName (toL "lodash") = false ∧
    PackageIntegrity.isSuspiciousPackageName (toL "express") = false := by
  refine ⟨?_, ?_, ?_, rfl, rfl⟩
  · intro name h
    have hll : toL "ll" = ['l', 'l'] := rfl
    have hoo : toL "oo" = ['o', 'o'] := rfl
    unfold PackageIntegrity.isSuspiciousPackageName
    rcases h with h | h
    · rw [specRun2_eq_containsSub] at h
      rw [hll, h]
      simp
    · rw [specRun2_eq_containsSub] at h
      rw [hoo, h]
      simp
  · intro name h
    unfold PackageIntegrity.isSuspiciousPackageName
    rw [h]
    simp
  · intro name h
    unfold PackageIntegrity.isSuspiciousPackageName
    rcases h with h | h <;> rw [h] <;> simp

/-- C8 witness: the amended claim applied at concrete names. -/
theorem C8_witness :
    PackageIntegrity.isSuspiciousPackageName (toL "lollipop") = true ∧
    PackageIntegrity.isSuspiciousPackageName (toL "pkg12345") = true ∧
    PackageIntegrity.isSuspiciousPackageName (toL "myadmintool") = true := by
  refine ⟨C8_amended.1 (toL "lollipop") (Or.inl (by decide)),
          C8_amended.2.1 (toL "pkg12345") (by decide),
          C8_amended.2.2.1 (toL "myadmintool") (Or.inl (by decide))⟩

/-! ## Claim C5: the file-extension allow-list check -/

/-- Fact: `extname` returns the empty string or a string starting with `.`. -/
theorem extname_shape (s : Str) :
    InputSanitizer.extname s = [] ∨
    ∃ t, InputSanitizer.extname s = '.' :: t := by
  unfold InputSanitizer.extname
  split
  · exact Or.inl rfl
  · exact Or.inr ⟨_, rfl⟩

/-- C5: claimed — a resolved path with a non-empty extension outside the
allow-list is rejected.  In the code the guard is
`ext && !allowedExtensions.includes(ext) && !ext.startsWith('.')`, and a
non-empty `path.extname` result always starts with `.`, so the guard can
never fire: `evil.exe` (resolved inside `/base`, extension `.exe` not in
the allow-list) is accepted, and no input whatsoever is rejected for its
extension. -/
theorem C5_extension_check_unreachable :
    InputSanitizer.sanitizeFilePath (toL "evil.exe") (toL "/base")
      = .ok (toL "/base/evil.exe") ∧
    ∀ fp bd : Str,
      InputSanitizer.sanitizeFilePath fp bd ≠
        .error (toL "File extension not allowed") := by
  refine ⟨rfl, ?_⟩
  intro fp bd
  unfold InputSanitizer.sanitizeFilePath
  split
  · intro h
    rw [Except.error.injEq] at h
    exact (by decide :
      ¬ (toL "File path cannot be empty" = toL "File extension not allowed")) h
  · split
    · intro h
      rw [Except.error.injEq] at h
      exact (by decide :
        ¬ (toL "File path too long (max 260 characters)"
            = toL "File extension not allowed")) h
    · split
      · intro h
        rw [Except.error.injEq] at h
        exact (by decide :
          ¬ (toL "File path outside allowed directory"
              = toL "File extension not allowed")) h
      · split
        · intro h
          rw [Except.error.injEq] at h
          exact (by decide :
            ¬ (toL "Access to forbidden path"
                = toL "File extension not allowed")) h
        · split
          · rename_i hcond
            rcases extname_shape
                (InputSanitizer.pathResolve bd (jsTrim fp)) with hsh | ⟨t, hsh⟩
            · rw [hsh] at hcond
              exact absurd rfl hcond.1
            · rw [hsh] at hcond
              exact absurd (by simp [isPre, toL, jsLower]) hcond.2.2
          · intro h
            exact Except.noConfusion h

/-! ## Claim C4: execSecure rejections before spawn -/

/-- C4 counterexample: `"npm "` (trailing space) is not an element of
the whitelist, yet `execSecure` trims it and proceeds to the spawn with
command `npm`, so the claim quantified over raw command strings fails. -/
theorem C4_counterexample :
    SecureCommand.ALLOWED_COMMANDS.contains (toL "npm ") = false ∧
    SecureCommand.execSecurePre (toL "npm ") [] = .ok (toL "npm", []) := by
  exact ⟨rfl, rfl⟩

/-- C4 amended: for every command string whose TRIMMED form is not in
the whitelist `{npm, node, git, yarn, pnpm}`, `execSecure` rejects
before any process is spawned (reaching the spawn site is `.ok`); and
whenever argument sanitization fails, it likewise rejects before any
process is spawned. -/
theorem C4_amended (cmd : Str) (args : List Str) :
    (SecureCommand.ALLOWED_COMMANDS.contains (jsTrim cmd) = false →
      ∀ v, SecureCommand.execSecurePre cmd args ≠ .ok v) ∧
    (∀ e, InputSanitizer.sanitizeCommandArgs args = .error e →
      ∀ v, SecureCommand.execSecurePre cmd args ≠ .ok v) := by
  constructor
  · intro h v
    unfold SecureCommand.execSecurePre
    split
    · exact fun hc => Except.noConfusion hc
    · rename_i hne
      rw [h]
      intro hc
      simp at hc
  · intro e he v
    unfold SecureCommand.execSecurePre
    split
    · exact fun hc => Except.noConfusion hc
    · split
      · exact fun hc => Except.noConfusion hc
      · rw [he]
        exact fun hc => Except.noConfusion hc

/-- C4 witness: the amended claim applied at concrete inputs. -/
theorem C4_witness :
    SecureCommand.execSecurePre (toL "rm") [] ≠ .ok (toL "rm", []) ∧
    SecureCommand.execSecurePre (toL "npm") [toL "a;b"] ≠
      .ok (toL "npm", [toL "a;b"]) := by
  constructor
  · exact (C4_amended (toL "rm") []).1 (by decide) (toL "rm", [])
  · exact (C4_amended (toL "npm") [toL "a;b"]).2
      (toL "Dangerous pattern detected in command argument") rfl
      (toL "npm", [toL "a;b"])

/-! ## Claim C3: metacharacters are rejected -/

/-- A metacharacter occurrence survives trimming and lowercasing. -/
theorem meta_lowtrim {s m : Str} (hm : m ∈ specMetaPatterns)
    (hsub : containsSub s m = true) :
    containsSub ((jsTrim s).map jsLower) m = true := by
  simp only [specMetaPatterns, List.mem_cons, List.not_mem_nil, or_false] at hm
  rcases hm with rfl | rfl | rfl | rfl | rfl
  all_goals
    exact containsSub_map jsLower
      (containsSub_jsTrim rfl (by decide) rfl (by decide) hsub)

/-- Fact: `sanitizePackageName` rejects every string containing one of the
five metacharacters. -/
theorem pkgName_rejects_meta {s m : Str} (hm : m ∈ specMetaPatterns)
    (hsub : containsSub s m = true) :
    (InputSanitizer.sanitizePackageName s).isOk = false := by
  have hlow : containsSub ((jsTrim s).map jsLower) m = true :=
    meta_lowtrim hm hsub
  have hmem : m ∈ InputSanitizer.dangerousPatterns := by
    simp only [specMetaPatterns, List.mem_cons, List.not_mem_nil, or_false] at hm
    rcases hm with rfl | rfl | rfl | rfl | rfl <;> decide
  have hmap : m.map jsLower = m := by
    simp only [specMetaPatterns, List.mem_cons, List.not_mem_nil, or_false] at hm
    rcases hm with rfl | rfl | rfl | rfl | rfl <;> rfl
  have hany : InputSanitizer.dangerousPatterns.any
      (fun pat =>
        containsSub ((jsTrim s).map jsLower) (pat.map jsLower)) = true := by
    rw [List.any_eq_true]
    refine ⟨m, hmem, ?_⟩
    rw [hmap]
    exact hlow
  unfold InputSanitizer.sanitizePackageName
  repeat' split
  all_goals first
    | rfl
    | exact absurd hany (by assumption)

/-- Fact: the per-argument check of `sanitizeCommandArgs` rejects every argument
containing one of the five metacharacters. -/
theorem arg_rejects_meta {s m : Str} (hm : m ∈ specMetaPatterns)
    (hsub : containsSub s m = true) :
    (InputSanitizer.sanitizeArg s).isOk = false := by
  have hlow : containsSub ((jsTrim s).map jsLower) m = true :=
    meta_lowtrim hm hsub
  have hmem : m ∈ InputSanitizer.argDangerousPatterns := by
    simp only [specMetaPatterns, List.mem_cons, List.not_mem_nil, or_false] at hm
    rcases hm with rfl | rfl | rfl | rfl | rfl <;> decide
  have hmap : m.map jsLower = m := by
    simp only [specMetaPatterns, List.mem_cons, List.not_mem_nil, or_false] at hm
    rcases hm with rfl | rfl | rfl | rfl | rfl <;> rfl
  have hany : InputSanitizer.argDangerousPatterns.any
      (fun pat =>
        containsSub ((jsTrim s).map jsLower) (pat.map jsLower)) = true := by
    rw [List.any_eq_true]
    refine ⟨m, hmem, ?_⟩
    rw [hmap]
    exact hlow
  unfold InputSanitizer.sanitizeArg
  repeat' split
  all_goals first
    | rfl
    | exact absurd hany (by assumption)

/-- C3: every string containing one of the metacharacters `;`, `|`, `&`,
backtick, or `$(` is rejected by `sanitizePackageName`, and
`sanitizeCommandArgs` rejects every argument list containing such a
string. -/
theorem C3_metacharacters_rejected :
    (∀ s : Str, (∃ m ∈ specMetaPatterns, containsSub s m = true) →
      (InputSanitizer.sanitizePackageName s).isOk = false) ∧
    (∀ args : List Str,
      (∃ a ∈ args, ∃ m ∈ specMetaPatterns, containsSub a m = true) →
      (InputSanitizer.sanitizeCommandArgs args).isOk = false) := by
  constructor
  · rintro s ⟨m, hm, hsub⟩
    exact pkgName_rejects_meta hm hsub
  · intro args
    induction args with
    | nil => rintro ⟨a, ha, -⟩; exact absurd ha (List.not_mem_nil a)
    | cons a rest ih =>
      rintro ⟨b, hb, m, hm, hsub⟩
      rcases List.mem_cons.mp hb with rfl | hbr
      · have hbad := arg_rejects_meta hm hsub
        unfold InputSanitizer.sanitizeCommandArgs
        cases hcall : InputSanitizer.sanitizeArg b with
        | error e => rfl
        | ok v => rw [hcall] at hbad; exact Bool.noConfusion hbad
      · have hrest := ih ⟨b, hbr, m, hm, hsub⟩
        unfold InputSanitizer.sanitizeCommandArgs
        cases hcall : InputSanitizer.sanitizeArg a with
        | error e => rfl
        | ok v =>
          cases hrec : InputSanitizer.sanitizeCommandArgs rest with
          | error e => rfl
          | ok vs => rw [hrec] at hrest; exact Bool.noConfusion hrest

/-- C3 witness: the theorem applied at concrete inputs. -/
theorem C3_witness :
    (InputSanitizer.sanitizePackageName (toL "lo;dash")).isOk = false ∧
    (InputSanitizer.sanitizeCommandArgs [toL "install", toL "x|y"]).isOk
      = false := by
  constructor
  · exact C3_metacharacters_rejected.1 (toL "lo;dash")
      ⟨toL ";", by decide, by decide⟩
  · exact C3_metacharacters_rejected.2 [toL "install", toL "x|y"]
      ⟨toL "x|y", by decide, toL "|", by decide, by decide⟩

/-! ## ConfigCrypto lemmas -/

namespace ConfigEncryption

theorem xorBytes_length (a b : List Nat) :
    (xorBytes a b).length = min a.length b.length := by
  simp [xorBytes]

theorem xorBytes_xorBytes (a : List Nat) :
    ∀ b : List Nat, a.length = b.length → xorBytes a (xorBytes a b) = b := by
  induction a with
  | nil =>
    intro b h
    cases b with
    | nil => rfl
    | cons y ys => simp at h
  | cons x xs ih =>
    intro b h
    cases b with
    | nil => simp at h
    | cons y ys =>
      simp only [List.length_cons, Nat.add_right_cancel_iff] at h
      show (x ^^^ (x ^^^ y)) :: xorBytes xs (xorBytes xs ys) = y :: ys
      rw [← Nat.xor_assoc, Nat.xor_self, Nat.zero_xor, ih ys h]

theorem pad16_length (p : List Nat) :
    (pad16 p).length = p.length + (16 - p.length % 16) := by
  simp [pad16]

theorem pad16_mod (p : List Nat) : (pad16 p).length % 16 = 0 := by
  rw [pad16_length]
  omega

theorem pad16_pos (p : List Nat) : 0 < (pad16 p).length := by
  rw [pad16_length]
  omega

theorem unpad16_pad16 (p : List Nat) : unpad16 (pad16 p) = some p := by
  have hk : 1 ≤ 16 - p.length % 16 ∧ 16 - p.length % 16 ≤ 16 := by omega
  unfold unpad16 pad16
  rw [List.getLast?_append, List.getLast?_replicate]
  rw [if_neg (by omega)]
  simp only [Option.or_some]
  rw [if_pos]
  · congr 1
    rw [List.length_append, List.length_replicate]
    rw [show p.length + (16 - p.length % 16) - (16 - p.length % 16)
        = p.length from by omega]
    exact List.take_left p _
  · refine ⟨hk.1, hk.2, ?_, ?_⟩
    · rw [List.length_append, List.length_replicate]
      omega
    · rw [List.length_append, List.length_replicate]
      rw [show p.length + (16 - p.length % 16) - (16 - p.length % 16)
          = p.length from by omega]
      rw [List.drop_left p _]
      rw [List.all_eq_true]
      intro x hx
      rw [List.eq_of_mem_replicate hx]
      simp

theorem chunkB_nil (f : Nat) : chunkB f [] = [] := by
  cases f <;> rfl

/-- Chunking a list that starts with a full 16-byte block peels it off. -/
theorem chunkB_cons_block (f : Nat) (b l : List Nat) (hb : b.length = 16) :
    chunkB (f + 1) (b ++ l) = b :: chunkB f l := by
  cases b with
  | nil => simp at hb
  | cons x xs =>
    show chunkB (f + 1) (x :: (xs ++ l)) = (x :: xs) :: chunkB f l
    rw [show chunkB (f + 1) (x :: (xs ++ l))
        = List.take 16 (x :: (xs ++ l)) :: chunkB f (List.drop 16 (x :: (xs ++ l)))
        from rfl]
    rw [show x :: (xs ++ l) = (x :: xs) ++ l from rfl]
    rw [List.take_left' hb, List.drop_left' hb]

/-- Chunking with sufficient fuel inverts `flatten` on lists of 16-byte
blocks. -/
theorem chunkB_flatten (bs : List (List Nat)) :
    ∀ f : Nat, (∀ b ∈ bs, b.length = 16) → bs.length ≤ f →
    chunkB f bs.flatten = bs := by
  induction bs with
  | nil => intro f _ _; exact chunkB_nil f
  | cons b rest ih =>
    intro f hall hle
    obtain ⟨g, rfl⟩ : ∃ g, f = g + 1 := by
      refine ⟨f - 1, ?_⟩
      have : 1 ≤ f := le_trans (by simp) hle
      omega
    rw [List.flatten_cons, chunkB_cons_block g b rest.flatten
      (hall b (by simp))]
    rw [ih g (fun x hx => hall x (by simp [hx])) (by simpa using hle)]

/-- Chunking a list whose length is a multiple of 16 yields 16-byte
blocks that flatten back to the list. -/
theorem chunkB_spec :
    ∀ (f : Nat) (l : List Nat), l.length % 16 = 0 → l.length ≤ f →
    (∀ b ∈ chunkB f l, b.length = 16) ∧ (chunkB f l).flatten = l := by
  intro f
  induction f with
  | zero =>
    intro l hmod hle
    have : l = [] := List.eq_nil_of_length_eq_zero (by omega)
    subst this
    simp [chunkB_nil]
  | succ g ih =>
    intro l hmod hle
    cases l with
    | nil => simp [chunkB_nil]
    | cons c rest =>
      have hlen : 16 ≤ (c :: rest).length := by
        have : (c :: rest).length ≠ 0 := by simp
        omega
      have htk : (List.take 16 (c :: rest)).length = 16 := by
        rw [List.length_take]
        omega
      have hdp : (List.drop 16 (c :: rest)).length
          = (c :: rest).length - 16 := List.length_drop 16 _
      have ihd := ih (List.drop 16 (c :: rest)) (by omega) (by omega)
      refine ⟨?_, ?_⟩
      · intro b hb
        rw [show chunkB (g + 1) (c :: rest)
            = List.take 16 (c :: rest) :: chunkB g (List.drop 16 (c :: rest))
            from rfl] at hb
        rcases List.mem_cons.mp hb with rfl | hb2
        · exact htk
        · exact ihd.1 b hb2
      · rw [show chunkB (g + 1) (c :: rest)
            = List.take 16 (c :: rest) :: chunkB g (List.drop 16 (c :: rest))
            from rfl]
        rw [List.flatten_cons, ihd.2, List.take_append_drop]

theorem cbcEncB_length (C : BlockCipher) (hC : GoodCipher C) :
    ∀ (bs : List (List Nat)) (prev : List Nat), prev.length = 16 →
    (∀ b ∈ bs, b.length = 16) →
    (∀ c ∈ cbcEncB C prev bs, c.length = 16) ∧
    (cbcEncB C prev bs).length = bs.length := by
  intro bs
  induction bs with
  | nil => intro prev _ _; simp [cbcEncB]
  | cons b rest ih =>
    intro prev hprev hall
    have hxl : (xorBytes prev b).length = 16 := by
      rw [xorBytes_length, hprev, hall b (by simp)]
      simp
    have hel : (C.enc (xorBytes prev b)).length = 16 := (hC _ hxl).1
    have ihr := ih (C.enc (xorBytes prev b)) hel
      (fun x hx => hall x (by simp [hx]))
    refine ⟨?_, ?_⟩
    · intro c hc
      rcases List.mem_cons.mp hc with rfl | hc2
      · exact hel
      · exact ihr.1 c hc2
    · simp only [cbcEncB, List.length_cons]
      rw [ihr.2]

theorem cbcDecB_cbcEncB (C : BlockCipher) (hC : GoodCipher C) :
    ∀ (bs : List (List Nat)) (prev : List Nat), prev.length = 16 →
    (∀ b ∈ bs, b.length = 16) →
    cbcDecB C prev (cbcEncB C prev bs) = bs := by
  intro bs
  induction bs with
  | nil => intro prev _ _; rfl
  | cons b rest ih =>
    intro prev hprev hall
    have hbl : b.length = 16 := hall b (by simp)
    have hxl : (xorBytes prev b).length = 16 := by
      rw [xorBytes_length, hprev, hbl]; simp
    have hel : (C.enc (xorBytes prev b)).length = 16 := (hC _ hxl).1
    show xorBytes prev (C.dec (C.enc (xorBytes prev b)))
        :: cbcDecB C (C.enc (xorBytes prev b))
          (cbcEncB C (C.enc (xorBytes prev b)) rest)
      = b :: rest
    rw [(hC _ hxl).2.1]
    rw [xorBytes_xorBytes prev b (by rw [hprev, hbl])]
    rw [ih (C.enc (xorBytes prev b)) hel (fun x hx => hall x (by simp [hx]))]

/-- The flattened concatenation of 16-byte blocks has length `16 * n`. -/
theorem flatten_length_16 (bs : List (List Nat))
    (h : ∀ b ∈ bs, b.length = 16) : bs.flatten.length = 16 * bs.length := by
  induction bs with
  | nil => rfl
  | cons b rest ih =>
    rw [List.flatten_cons, List.length_append, h b (by simp),
      ih (fun x hx => h x (by simp [hx])), List.length_cons]
    omega

/-- Core round-trip fact: a blob whose ciphertext is the CBC encryption
of `pad16 p` under `C` and `iv`, whose `iv` field is that IV, and whose
`algorithm` field is absent or the stored identifier, decrypts to `p`.
The `tag` field is arbitrary: `decrypt` never reads it. -/
theorem decrypt_encrypt_core (C : BlockCipher) (hC : GoodCipher C)
    (hash : List Nat → List Nat) (iv p tag : List Nat)
    (hiv : iv.length = 16) (alg : Option Str)
    (halg : alg = none ∨ alg = some ALGORITHM) :
    SecureConfig.decrypt ⟨some C, hash⟩
      { encrypted := (cbcEncB C iv
          (chunkB (pad16 p).length (pad16 p))).flatten,
        iv := iv, tag := tag, algorithm := alg } = .ok p := by
  have hchunk := chunkB_spec (pad16 p).length (pad16 p) (pad16_mod p)
    (le_refl _)
  have hencl := cbcEncB_length C hC (chunkB (pad16 p).length (pad16 p)) iv
    hiv hchunk.1
  have hflat :
      ((cbcEncB C iv (chunkB (pad16 p).length (pad16 p))).flatten).length
      = 16 * (chunkB (pad16 p).length (pad16 p)).length := by
    rw [flatten_length_16 _ hencl.1, hencl.2]
  have hcne : (chunkB (pad16 p).length (pad16 p)).length ≠ 0 := by
    intro h0
    have := hchunk.2
    rw [List.eq_nil_of_length_eq_zero h0] at this
    have hp := pad16_pos p
    rw [← this] at hp
    simp at hp
  unfold SecureConfig.decrypt
  dsimp only
  rw [if_neg (by
    rcases halg with rfl | rfl
    · simp [algTruthy]
    · simp)]
  rw [if_neg (by
    push_neg
    constructor
    · rw [hflat]; omega
    · rw [hflat]; omega)]
  rw [chunkB_flatten (cbcEncB C iv (chunkB (pad16 p).length (pad16 p)))
    _ hencl.1 (by rw [hflat, hencl.2]; omega)]
  rw [cbcDecB_cbcEncB C hC _ iv hiv hchunk.1]
  rw [hchunk.2, unpad16_pad16]

end ConfigEncryption

/-! ## Claim C2: decrypt ∘ encrypt = id -/

/-- C2: for every plaintext (byte string) `p`, with an initialized key
of the fixed length (modelled by the keyed AES-256 block permutation
`C`, which Node guarantees behaves as a `GoodCipher`), decrypting the
blob produced by `encrypt` returns `p`.  The IV is the fresh
`randomBytes(16)` value of that call. -/
theorem C2_decrypt_encrypt_roundtrip (C : ConfigEncryption.BlockCipher)
    (hC : ConfigEncryption.GoodCipher C) (hash : List Nat → List Nat)
    (iv p : List Nat) (hiv : iv.length = 16)
    (blob : ConfigEncryption.EncryptedBlob)
    (henc : ConfigEncryption.SecureConfig.encrypt ⟨some C, hash⟩ iv p
      = .ok blob) :
    ConfigEncryption.SecureConfig.decrypt ⟨some C, hash⟩ blob = .ok p := by
  have h0 : ConfigEncryption.SecureConfig.encrypt ⟨some C, hash⟩ iv p
      = .ok (ConfigEncryption.EncryptedBlob.mk
          ((ConfigEncryption.cbcEncB C iv
            (ConfigEncryption.chunkB (ConfigEncryption.pad16 p).length
              (ConfigEncryption.pad16 p))).flatten)
          iv
          (hash ((ConfigEncryption.cbcEncB C iv
            (ConfigEncryption.chunkB (ConfigEncryption.pad16 p).length
              (ConfigEncryption.pad16 p))).flatten))
          (some ConfigEncryption.ALGORITHM)) := rfl
  rw [h0] at henc
  have hblob := Except.ok.inj henc
  rw [← hblob]
  exact ConfigEncryption.decrypt_encrypt_core C hC hash iv p _ hiv _
    (Or.inr rfl)

/-- C2 witness: the round trip evaluated at a concrete cipher, key,
IV and plaintext. -/
theorem C2_witness :
    ConfigEncryption.SecureConfig.decrypt ConfigEncryption.scW
      ConfigEncryption.blobW = .ok ConfigEncryption.pW := by
  exact C2_decrypt_encrypt_roundtrip ConfigEncryption.idCipher
    ConfigEncryption.idCipher_good ConfigEncryption.zeroHash
    ConfigEncryption.ivW ConfigEncryption.pW rfl ConfigEncryption.blobW rfl

/-! ## Claim C10: decrypt's algorithm check and the unread tag -/

/-- C10: `decrypt` raises the unsupported-algorithm error only when the
blob's `algorithm` field is present (truthy) and differs from
`aes-256-gcm`; a blob with the field absent passes the check and is
decrypted (to the original plaintext, for an encrypt-produced blob);
and the `tag` field is never examined — decryption is invariant under
replacing it. -/
theorem C10_algorithm_check_and_tag :
    (∀ (sc : ConfigEncryption.SecureConfig)
       (blob : ConfigEncryption.EncryptedBlob),
      ConfigEncryption.SecureConfig.decrypt sc blob
          = .error (toL "Unsupported encryption algorithm") →
      ∃ a, blob.algorithm = some a ∧ a ≠ ConfigEncryption.ALGORITHM) ∧
    (∀ (sc : ConfigEncryption.SecureConfig)
       (blob : ConfigEncryption.EncryptedBlob) (t : List Nat),
      ConfigEncryption.SecureConfig.decrypt sc { blob with tag := t }
        = ConfigEncryption.SecureConfig.decrypt sc blob) ∧
    (∀ (C : ConfigEncryption.BlockCipher),
      ConfigEncryption.GoodCipher C → ∀ (hash : List Nat → List Nat)
      (iv p : List Nat), iv.length = 16 →
      ∀ blob : ConfigEncryption.EncryptedBlob,
      ConfigEncryption.SecureConfig.encrypt ⟨some C, hash⟩ iv p
          = .ok blob →
      ConfigEncryption.SecureConfig.decrypt ⟨some C, hash⟩
        { blob with algorithm := none } = .ok p) := by
  refine ⟨?_, ?_, ?_⟩
  · intro sc blob h
    unfold ConfigEncryption.SecureConfig.decrypt at h
    rcases hc : sc.cipher with - | C
    · rw [hc] at h
      dsimp only at h
      rw [Except.error.injEq] at h
      exact absurd h (by decide)
    · rw [hc] at h
      dsimp only at h
      by_cases hcond : (ConfigEncryption.algTruthy blob.algorithm &&
          decide (blob.algorithm ≠ some ConfigEncryption.ALGORITHM)) = true
      · rw [Bool.and_eq_true] at hcond
        obtain ⟨htr, hne⟩ := hcond
        cases halg : blob.algorithm with
        | none => rw [halg] at htr; exact absurd htr (by decide)
        | some a =>
          refine ⟨a, rfl, ?_⟩
          rw [halg] at hne
          have := of_decide_eq_true hne
          intro hcontra
          exact this (by rw [hcontra])
      · rw [if_neg hcond] at h
        split at h
        · rw [Except.error.injEq] at h
          exact absurd h (by decide)
        · split at h
          · exact Except.noConfusion h
          · rw [Except.error.injEq] at h
            exact absurd h (by decide)
  · intro sc blob t
    cases blob
    rfl
  · intro C hC hash iv p hiv blob henc
    have h0 : ConfigEncryption.SecureConfig.encrypt ⟨some C, hash⟩ iv p
        = .ok (ConfigEncryption.EncryptedBlob.mk
            ((ConfigEncryption.cbcEncB C iv
              (ConfigEncryption.chunkB (ConfigEncryption.pad16 p).length
                (ConfigEncryption.pad16 p))).flatten)
            iv
            (hash ((ConfigEncryption.cbcEncB C iv
              (ConfigEncryption.chunkB (ConfigEncryption.pad16 p).length
                (ConfigEncryption.pad16 p))).flatten))
            (some ConfigEncryption.ALGORITHM)) := rfl
    rw [h0] at henc
    rw [← Except.ok.inj henc]
    exact ConfigEncryption.decrypt_encrypt_core C hC hash iv p _ hiv none
      (Or.inl rfl)

/-- C10 witness: the three parts evaluated at concrete blobs. -/
theorem C10_witness :
    (∃ a, (ConfigEncryption.EncryptedBlob.mk [] [] []
        (some (toL "aes-128-cbc"))).algorithm = some a ∧
      a ≠ ConfigEncryption.ALGORITHM) ∧
    ConfigEncryption.SecureConfig.decrypt ConfigEncryption.scW
        { ConfigEncryption.blobW with tag := [7] }
      = ConfigEncryption.SecureConfig.decrypt ConfigEncryption.scW
        ConfigEncryption.blobW ∧
    ConfigEncryption.SecureConfig.decrypt ConfigEncryption.scW
        { ConfigEncryption.blobW with algorithm := none }
      = .ok ConfigEncryption.pW := by
  refine ⟨?_, ?_, ?_⟩
  · exact C10_algorithm_check_and_tag.1 ConfigEncryption.scW
      (ConfigEncryption.EncryptedBlob.mk [] [] []
        (some (toL "aes-128-cbc"))) rfl
  · exact C10_algorithm_check_and_tag.2.1 ConfigEncryption.scW
      ConfigEncryption.blobW [7]
  · exact C10_algorithm_check_and_tag.2.2 ConfigEncryption.idCipher
      ConfigEncryption.idCipher_good ConfigEncryption.zeroHash
      ConfigEncryption.ivW ConfigEncryption.pW rfl ConfigEncryption.blobW rfl

/-! ## Claim C1: tampering with the ciphertext -/

namespace ConfigEncryption

theorem tamperFirst_length (l : List Nat) :
    (tamperFirst l).length = l.length := by
  cases l <;> rfl

theorem tamperFirst_append (a b : List Nat) (ha : a ≠ []) :
    tamperFirst (a ++ b) = tamperFirst a ++ b := by
  cases a with
  | nil => exact absurd rfl ha
  | cons x xs => rfl

theorem xor_head_tamper (x y : Nat) : x ^^^ 1 ^^^ (x ^^^ y) = y ^^^ 1 := by
  rw [Nat.xor_comm x 1, Nat.xor_assoc, ← Nat.xor_assoc x x y,
    Nat.xor_self, Nat.zero_xor, Nat.xor_comm 1 y]

/-- XOR-ing a tampered chaining block against the decryption of an
untampered ciphertext block lands the tampering in the plaintext. -/
theorem xorBytes_tamper (a b : List Nat) (h : a.length = b.length) :
    xorBytes (tamperFirst a) (xorBytes a b) = tamperFirst b := by
  cases a with
  | nil =>
    cases b with
    | nil => rfl
    | cons y ys => simp at h
  | cons x xs =>
    cases b with
    | nil => simp at h
    | cons y ys =>
      simp only [List.length_cons, Nat.add_right_cancel_iff] at h
      show (x ^^^ 1 ^^^ (x ^^^ y)) :: xorBytes xs (xorBytes xs ys)
        = (y ^^^ 1) :: ys
      rw [xor_head_tamper, xorBytes_xorBytes xs ys h]

theorem chunkB_single (f : Nat) (l : List Nat) (hl : l.length = 16)
    (hf : 1 ≤ f) : chunkB f l = [l] := by
  obtain ⟨g, rfl⟩ : ∃ g, f = g + 1 := ⟨f - 1, by omega⟩
  have := chunkB_cons_block g l [] hl
  rw [List.append_nil] at this
  rw [this, chunkB_nil]

theorem chunkB_two (f : Nat) (a b : List Nat) (ha : a.length = 16)
    (hb : b.length = 16) (hf : 2 ≤ f) : chunkB f (a ++ b) = [a, b] := by
  obtain ⟨g, rfl⟩ : ∃ g, f = g + 1 := ⟨f - 1, by omega⟩
  rw [chunkB_cons_block g a b ha, chunkB_single g b hb (by omega)]

/-- Evaluating `decrypt` on a two-block ciphertext whose FIRST block was
tampered, when the second (final) block decrypts to a one-byte-padded
plaintext block: the padding byte survives, so decryption succeeds and
returns the (corrupted) unpadded bytes. -/
theorem decrypt_tampered (C : BlockCipher) (hC : GoodCipher C)
    (hash : List Nat → List Nat) (iv c1 d tg : List Nat)
    (hiv : iv.length = 16) (hc1 : c1.length = 16) (hd : d.length = 15) :
    SecureConfig.decrypt ⟨some C, hash⟩
      (EncryptedBlob.mk
        (tamperFirst c1 ++ C.enc (xorBytes c1 (d ++ [1]))) iv tg
        (some ALGORITHM))
      = .ok (xorBytes iv (C.dec (tamperFirst c1)) ++ tamperFirst d) := by
  have htc1 : (tamperFirst c1).length = 16 := by rw [tamperFirst_length, hc1]
  have ht2len : (d ++ [1] : List Nat).length = 16 := by
    rw [List.length_append, hd]
    rfl
  have hx2 : (xorBytes c1 (d ++ [1])).length = 16 := by
    rw [xorBytes_length, hc1, ht2len]; decide
  have hc2 : (C.enc (xorBytes c1 (d ++ [1]))).length = 16 := (hC _ hx2).1
  have hctlen : (tamperFirst c1 ++ C.enc (xorBytes c1 (d ++ [1]))).length
      = 32 := by
    rw [List.length_append, htc1, hc2]
  have hdecc1 : (C.dec (tamperFirst c1)).length = 16 := (hC _ htc1).2.2
  have hP1 : (xorBytes iv (C.dec (tamperFirst c1))).length = 16 := by
    rw [xorBytes_length, hiv, hdecc1]; decide
  have hdne : d ≠ [] := by
    intro h0; rw [h0] at hd; simp at hd
  have htd : (tamperFirst d).length = 15 := by rw [tamperFirst_length, hd]
  have hq : (xorBytes iv (C.dec (tamperFirst c1)) ++ tamperFirst d).length
      = 31 := by
    rw [List.length_append, hP1, htd]
  unfold SecureConfig.decrypt
  dsimp only
  rw [if_neg (by decide)]
  rw [if_neg (by rw [hctlen]; decide)]
  rw [hctlen]
  rw [chunkB_two 32 _ _ htc1 hc2 (by omega)]
  rw [show cbcDecB C iv
      [tamperFirst c1, C.enc (xorBytes c1 (d ++ [1]))]
      = [xorBytes iv (C.dec (tamperFirst c1)),
         xorBytes (tamperFirst c1)
           (C.dec (C.enc (xorBytes c1 (d ++ [1]))))] from rfl]
  rw [(hC _ hx2).2.1]
  rw [xorBytes_tamper c1 (d ++ [1]) (by rw [hc1, ht2len])]
  rw [tamperFirst_append d [1] hdne]
  simp only [List.flatten_cons, List.flatten_nil, List.append_nil]
  rw [← List.append_assoc]
  have hup : unpad16
      ((xorBytes iv (C.dec (tamperFirst c1)) ++ tamperFirst d) ++ [1])
      = some (xorBytes iv (C.dec (tamperFirst c1)) ++ tamperFirst d) := by
    have hlen32 : ((xorBytes iv (C.dec (tamperFirst c1)) ++ tamperFirst d)
        ++ [1]).length = 32 := by
      rw [List.length_append, hq]
      rfl
    unfold unpad16
    rw [List.getLast?_concat]
    rw [hlen32]
    dsimp only
    rw [show (32 : Nat) - 1 = 31 from rfl]
    rw [List.drop_left' hq, List.take_left' hq]
    rw [if_pos (by decide)]
  rw [hup]

/-- C1 amended: decryption verifies only the CBC padding, never the
tag, so tampering can go undetected.  Concretely: for every good block
cipher, key/hash, 16-byte IV and 31-byte plaintext, flipping the low
bit of the FIRST ciphertext byte of the encrypt-produced blob yields a
blob that `decrypt` accepts without error, returning a plaintext that
differs from the original (the padding byte lies in the final block and
is untouched, so the padding check passes). -/
theorem C1_amended (C : BlockCipher) (hC : GoodCipher C)
    (hash : List Nat → List Nat) (iv p : List Nat)
    (hiv : iv.length = 16) (hp : p.length = 31)
    (blob : EncryptedBlob)
    (henc : SecureConfig.encrypt ⟨some C, hash⟩ iv p = .ok blob) :
    ∃ q, SecureConfig.decrypt ⟨some C, hash⟩
        { blob with encrypted := tamperFirst blob.encrypted } = .ok q ∧
      q ≠ p := by
  have hpad : pad16 p = p ++ [1] := by
    unfold pad16
    rw [hp]
    rfl
  have hpadlen : (pad16 p).length = 32 := by
    rw [hpad, List.length_append, hp]
    rfl
  have ht2 : (pad16 p).drop 16 = p.drop 16 ++ [1] := by
    rw [hpad, List.drop_append_of_le_length (by omega)]
  have ht1len : ((pad16 p).take 16).length = 16 := by
    rw [List.length_take, hpadlen]
    decide
  have ht2len : ((pad16 p).drop 16).length = 16 := by
    rw [List.length_drop, hpadlen]
  have hchunk : chunkB (pad16 p).length (pad16 p)
      = [(pad16 p).take 16, (pad16 p).drop 16] := by
    conv_lhs => rw [show pad16 p = (pad16 p).take 16 ++ (pad16 p).drop 16
      from (List.take_append_drop 16 (pad16 p)).symm]
    rw [show ((pad16 p).take 16 ++ (pad16 p).drop 16).length = 32 from by
      rw [List.take_append_drop]; exact hpadlen] at *
    exact chunkB_two 32 _ _ ht1len ht2len (by omega)
  have hx1len : (xorBytes iv ((pad16 p).take 16)).length = 16 := by
    rw [xorBytes_length, hiv, ht1len]; decide
  have hc1len : (C.enc (xorBytes iv ((pad16 p).take 16))).length = 16 :=
    (hC _ hx1len).1
  have hc1ne : C.enc (xorBytes iv ((pad16 p).take 16)) ≠ [] := by
    intro h0; rw [h0] at hc1len; simp at hc1len
  have hencblocks : cbcEncB C iv (chunkB (pad16 p).length (pad16 p))
      = [C.enc (xorBytes iv ((pad16 p).take 16)),
         C.enc (xorBytes (C.enc (xorBytes iv ((pad16 p).take 16)))
           ((pad16 p).drop 16))] := by
    rw [hchunk]
    rfl
  have hb : blob = EncryptedBlob.mk
      ((cbcEncB C iv (chunkB (pad16 p).length (pad16 p))).flatten) iv
      (hash ((cbcEncB C iv (chunkB (pad16 p).length (pad16 p))).flatten))
      (some ALGORITHM) := by
    have h0 : SecureConfig.encrypt ⟨some C, hash⟩ iv p
        = .ok (EncryptedBlob.mk
            ((cbcEncB C iv (chunkB (pad16 p).length (pad16 p))).flatten) iv
            (hash ((cbcEncB C iv
              (chunkB (pad16 p).length (pad16 p))).flatten))
            (some ALGORITHM)) := rfl
    rw [h0] at henc
    exact (Except.ok.inj henc).symm
  subst hb
  simp only [hencblocks, List.flatten_cons, List.flatten_nil,
    List.append_nil]
  rw [tamperFirst_append _ _ hc1ne]
  have hdlen : (p.drop 16).length = 15 := by
    rw [List.length_drop, hp]
  refine ⟨xorBytes iv
      (C.dec (tamperFirst (C.enc (xorBytes iv ((pad16 p).take 16)))))
    ++ tamperFirst (p.drop 16), ?_, ?_⟩
  · rw [ht2]
    exact decrypt_tampered C hC hash iv
      (C.enc (xorBytes iv ((pad16 p).take 16))) (p.drop 16) _ hiv hc1len
      hdlen
  · intro hqp
    have hP1 : (xorBytes iv
        (C.dec (tamperFirst (C.enc (xorBytes iv
          ((pad16 p).take 16)))))).length = 16 := by
      rw [xorBytes_length, hiv,
        (hC _ (by rw [tamperFirst_length, hc1len])).2.2]
      decide
    cases hd0 : p.drop 16 with
    | nil => rw [hd0] at hdlen; simp at hdlen
    | cons e es =>
      have h16 := congrArg (fun l => l[16]?) hqp
      simp only at h16
      rw [List.getElem?_append_right (by rw [hP1])] at h16
      rw [hP1] at h16
      rw [hd0] at h16
      have hp16 : p[16]? = some e := by
        have := List.getElem?_drop p 16 0
        rw [hd0] at this
        simpa using this.symm
      rw [hp16] at h16
      rw [show tamperFirst (e :: es) = (e ^^^ 1) :: es from rfl] at h16
      rw [show (16 : Nat) - 16 = 0 from rfl] at h16
      rw [List.getElem?_cons_zero] at h16
      have hxe := Option.some.inj h16
      have h1 : e ^^^ (e ^^^ 1) = e ^^^ e := congrArg (fun z => e ^^^ z) hxe
      rw [← Nat.xor_assoc, Nat.xor_self, Nat.zero_xor] at h1
      exact absurd h1 (by decide)

end ConfigEncryption

/-- C1 counterexample: a concrete encrypt-produced blob whose ciphertext
has one byte altered, which `decrypt` nevertheless accepts, returning a
plaintext different from the original — the claim that decryption of a
tampered blob always fails is false. -/
theorem C1_counterexample :
    ConfigEncryption.SecureConfig.decrypt ConfigEncryption.scW
        ConfigEncryption.tamperedW = .ok ConfigEncryption.qW ∧
    ConfigEncryption.qW ≠ ConfigEncryption.pW := by
  exact ⟨rfl, by decide⟩

/-- C1 witness: the amended claim applied at the concrete cipher, IV and
plaintext. -/
theorem C1_witness :
    ConfigEncryption.SecureConfig.decrypt ConfigEncryption.scW
        { ConfigEncryption.blobW with
            encrypted := ConfigEncryption.tamperFirst
              ConfigEncryption.blobW.encrypted }
      = .ok ConfigEncryption.qW ∧
    ConfigEncryption.qW ≠ ConfigEncryption.pW := by
  obtain ⟨q, hq, hqp⟩ := ConfigEncryption.C1_amended ConfigEncryption.idCipher
    ConfigEncryption.idCipher_good ConfigEncryption.zeroHash
    ConfigEncryption.ivW ConfigEncryption.pW rfl rfl
    ConfigEncryption.blobW rfl
  have hq2 : ConfigEncryption.SecureConfig.decrypt ConfigEncryption.scW
      { ConfigEncryption.blobW with
          encrypted := ConfigEncryption.tamperFirst
            ConfigEncryption.blobW.encrypted }
      = .ok ConfigEncryption.qW := rfl
  have hq3 : ConfigEncryption.SecureConfig.decrypt ConfigEncryption.scW
      { ConfigEncryption.blobW with
          encrypted := ConfigEncryption.tamperFirst
            ConfigEncryption.blobW.encrypted }
      = .ok q := hq
  rw [hq2] at hq3
  have hqq : ConfigEncryption.qW = q := Except.ok.inj hq3
  subst hqq
  exact ⟨hq2, hqp⟩

/-! ## RateLimiter lemmas -/

theorem pruneMap_nil (ws : Int) : pruneMap ws [] = [] := rfl

theorem pruneMap_single_keep (ws : Int) (id : String) (acc : List Int)
    (hacc : acc ≠ []) (hkeep : ∀ s ∈ acc, ws < s) :
    pruneMap ws [(id, acc)] = [(id, acc)] := by
  have hfilter : acc.filter (fun ts => decide (ws < ts)) = acc :=
    List.filter_eq_self.mpr (fun s hs => decide_eq_true (hkeep s hs))
  unfold pruneMap
  rw [List.filterMap_cons]
  dsimp only
  rw [hfilter]
  rw [if_neg (by
    intro h0
    exact hacc (List.isEmpty_iff.mp h0))]
  rfl

theorem lookupAL_single (id : String) (acc : List Int) :
    lookupAL [(id, acc)] id = some acc := by
  unfold lookupAL
  rw [if_pos rfl]

theorem setAL_single (id : String) (acc v : List Int) :
    setAL [(id, acc)] id v = [(id, v)] := by
  unfold setAL
  rw [if_pos rfl]

/-- Evaluation of `isAllowed` on a one-identifier state, window not yet expired,
quota not yet reached: allow and append. -/
theorem isAllowed_single_true (n : Nat) (w : Int) (id : String)
    (acc : List Int) (t : Int) (hacc : acc ≠ [])
    (hkeep : ∀ s ∈ acc, t - w < s) (hcount : acc.length < n) :
    RateLimiter.isAllowed ⟨n, w, [(id, acc)]⟩ t id
      = (true, ⟨n, w, [(id, acc ++ [t])]⟩) := by
  have hfilter : acc.filter (fun ts => decide (t - w < ts)) = acc :=
    List.filter_eq_self.mpr (fun s hs => decide_eq_true (hkeep s hs))
  unfold RateLimiter.isAllowed
  dsimp only
  rw [pruneMap_single_keep (t - w) id acc hacc hkeep, lookupAL_single]
  dsimp only [Option.getD_some]
  rw [hfilter]
  rw [if_neg (by omega)]
  rw [setAL_single]

/-- Evaluation of `isAllowed` on a one-identifier state, window not yet expired,
quota reached: deny without appending. -/
theorem isAllowed_single_false (n : Nat) (w : Int) (id : String)
    (acc : List Int) (t : Int) (hacc : acc ≠ [])
    (hkeep : ∀ s ∈ acc, t - w < s) (hcount : n ≤ acc.length) :
    RateLimiter.isAllowed ⟨n, w, [(id, acc)]⟩ t id
      = (false, ⟨n, w, [(id, acc)]⟩) := by
  have hfilter : acc.filter (fun ts => decide (t - w < ts)) = acc :=
    List.filter_eq_self.mpr (fun s hs => decide_eq_true (hkeep s hs))
  unfold RateLimiter.isAllowed
  dsimp only
  rw [pruneMap_single_keep (t - w) id acc hacc hkeep, lookupAL_single]
  dsimp only [Option.getD_some]
  rw [hfilter]
  rw [if_pos (by omega)]

/-- First `isAllowed` call on an empty limiter with positive quota. -/
theorem isAllowed_empty_true (n : Nat) (w : Int) (id : String) (t : Int)
    (hn : 0 < n) :
    RateLimiter.isAllowed ⟨n, w, []⟩ t id = (true, ⟨n, w, [(id, [t])]⟩) := by
  unfold RateLimiter.isAllowed
  dsimp only
  rw [pruneMap_nil]
  unfold lookupAL
  dsimp only [Option.getD_none]
  rw [List.filter_nil]
  rw [if_neg (by simp; omega)]
  rfl

/-- Invariant run: starting from a one-identifier state whose timestamps
all lie (with all the future call times) in a span shorter than the
window, every call is allowed and the final state holds all timestamps
in order. -/
theorem runSeq_invariant (n : Nat) (w : Int) (id : String) :
    ∀ (ts acc : List Int) (lo hi : Int), acc ≠ [] →
    hi < lo + w →
    (∀ s ∈ acc, lo ≤ s ∧ s ≤ hi) → (∀ s ∈ ts, lo ≤ s ∧ s ≤ hi) →
    acc.length + ts.length ≤ n →
    runSeq ⟨n, w, [(id, acc)]⟩ id ts
      = (List.replicate ts.length true, ⟨n, w, [(id, acc ++ ts)]⟩) := by
  intro ts
  induction ts with
  | nil =>
    intro acc lo hi _ _ _ _ _
    simp [runSeq]
  | cons t rest ih =>
    intro acc lo hi hacc hwin haccb htsb hlen
    have htb := htsb t (by simp)
    have hkeep : ∀ s ∈ acc, t - w < s := by
      intro s hs
      have := haccb s hs
      omega
    have hstep := isAllowed_single_true n w id acc t hacc hkeep (by
      simp at hlen
      omega)
    show ((RateLimiter.isAllowed ⟨n, w, [(id, acc)]⟩ t id).1 ::
        (runSeq (RateLimiter.isAllowed ⟨n, w, [(id, acc)]⟩ t id).2 id rest).1,
      (runSeq (RateLimiter.isAllowed ⟨n, w, [(id, acc)]⟩ t id).2 id rest).2)
      = _
    rw [hstep]
    have ihr := ih (acc ++ [t]) lo hi (by simp) hwin
      (by
        intro s hs
        rcases List.mem_append.mp hs with h | h
        · exact haccb s h
        · rw [List.mem_singleton.mp h]; exact htb)
      (fun s hs => htsb s (by simp [hs]))
      (by simp at hlen ⊢; omega)
    dsimp only
    rw [ihr]
    rw [List.append_assoc]
    rfl

/-- Filtering twice by the same window predicate is idempotent. -/
theorem filter_window_idem (l : List Int) (ws : Int) :
    (l.filter (fun s => decide (ws < s))).filter (fun s => decide (ws < s))
      = l.filter (fun s => decide (ws < s)) := by
  rw [List.filter_filter]
  exact List.filter_congr (fun x _ => Bool.and_self _)

/-- Filtering by a later window start subsumes an earlier one. -/
theorem filter_window_mono (l : List Int) (w1 w2 : Int) (h : w1 ≤ w2) :
    (l.filter (fun s => decide (w1 < s))).filter (fun s => decide (w2 < s))
      = l.filter (fun s => decide (w2 < s)) := by
  rw [List.filter_filter]
  apply List.filter_congr
  intro x _
  by_cases h2 : w2 < x
  · have h1 : w1 < x := by omega
    rw [decide_eq_true h2, decide_eq_true h1]
    rfl
  · rw [decide_eq_false h2]
    rfl

theorem lookupAL_cons (k : String) (x : List Int)
    (rest : List (String × List Int)) (b : String) :
    lookupAL ((k, x) :: rest) b = if k = b then some x else lookupAL rest b :=
  rfl

theorem setAL_cons (k : String) (x : List Int)
    (rest : List (String × List Int)) (a : String) (v : List Int) :
    setAL ((k, x) :: rest) a v
      = if k = a then (k, v) :: rest else (k, x) :: setAL rest a v :=
  rfl

theorem lookupAL_none_of_not_mem (m : List (String × List Int)) (b : String)
    (h : b ∉ m.map Prod.fst) : lookupAL m b = none := by
  induction m with
  | nil => rfl
  | cons kv rest ih =>
    obtain ⟨k, x⟩ := kv
    simp only [List.map_cons, List.mem_cons] at h
    push_neg at h
    rw [lookupAL_cons]
    rw [if_neg (fun hc => h.1 hc.symm)]
    exact ih h.2

theorem lookupAL_mem (m : List (String × List Int)) (b : String)
    (v : List Int) (h : lookupAL m b = some v) : (b, v) ∈ m := by
  induction m with
  | nil => exact absurd h (by simp [lookupAL])
  | cons kv rest ih =>
    obtain ⟨k, x⟩ := kv
    rw [lookupAL_cons] at h
    by_cases hk : k = b
    · rw [if_pos hk] at h
      subst hk
      rw [Option.some.inj h]
      simp
    · rw [if_neg hk] at h
      exact List.mem_cons_of_mem _ (ih h)

theorem lookupAL_setAL_ne (m : List (String × List Int)) (a b : String)
    (v : List Int) (hab : a ≠ b) :
    lookupAL (setAL m a v) b = lookupAL m b := by
  induction m with
  | nil =>
    show lookupAL [(a, v)] b = none
    unfold lookupAL
    rw [if_neg hab]
    rfl
  | cons kv rest ih =>
    obtain ⟨k, x⟩ := kv
    rw [setAL_cons]
    by_cases hk : k = a
    · subst hk
      rw [if_pos rfl, lookupAL_cons, lookupAL_cons]
      rw [if_neg hab, if_neg hab]
    · rw [if_neg hk, lookupAL_cons, lookupAL_cons]
      by_cases hb : k = b
      · rw [if_pos hb, if_pos hb]
      · rw [if_neg hb, if_neg hb]
        exact ih

theorem mem_keys_pruneMap (ws : Int) (m : List (String × List Int))
    (b : String) (h : b ∈ (pruneMap ws m).map Prod.fst) :
    b ∈ m.map Prod.fst := by
  rw [List.mem_map] at h ⊢
  obtain ⟨kv, hkv, rfl⟩ := h
  unfold pruneMap at hkv
  rw [List.mem_filterMap] at hkv
  obtain ⟨x, hx, hfx⟩ := hkv
  by_cases he : (x.2.filter (fun ts => decide (ws < ts))).isEmpty = true
  · rw [if_pos he] at hfx
    exact absurd hfx (by simp)
  · rw [if_neg he] at hfx
    refine ⟨x, hx, ?_⟩
    rw [← Option.some.inj hfx]

theorem mem_setAL (m : List (String × List Int)) (a : String)
    (v : List Int) (kv : String × List Int) (h : kv ∈ setAL m a v) :
    kv ∈ m ∨ kv = (a, v) := by
  induction m with
  | nil =>
    right
    simpa [setAL] using h
  | cons hd rest ih =>
    obtain ⟨k, x⟩ := hd
    rw [setAL_cons] at h
    by_cases hk : k = a
    · subst hk
      rw [if_pos rfl] at h
      rcases List.mem_cons.mp h with rfl | hr
      · right; rfl
      · left; exact List.mem_cons_of_mem _ hr
    · rw [if_neg hk] at h
      rcases List.mem_cons.mp h with rfl | hr
      · left; simp
      · rcases ih hr with h1 | h2
        · left; exact List.mem_cons_of_mem _ h1
        · right; exact h2

theorem mem_pruneMap (ws : Int) (m : List (String × List Int))
    (kv : String × List Int) (h : kv ∈ pruneMap ws m) :
    ∃ x ∈ m, kv = (x.1, x.2.filter (fun ts => decide (ws < ts))) := by
  unfold pruneMap at h
  rw [List.mem_filterMap] at h
  obtain ⟨x, hx, hfx⟩ := h
  by_cases he : (x.2.filter (fun ts => decide (ws < ts))).isEmpty = true
  · rw [if_pos he] at hfx
    exact absurd hfx (by simp)
  · rw [if_neg he] at hfx
    exact ⟨x, hx, (Option.some.inj hfx).symm⟩

theorem pruneMap_cons (ws : Int) (k : String) (x : List Int)
    (rest : List (String × List Int)) :
    pruneMap ws ((k, x) :: rest)
      = if (x.filter (fun ts => decide (ws < ts))).isEmpty then
          pruneMap ws rest
        else (k, x.filter (fun ts => decide (ws < ts))) :: pruneMap ws rest := by
  unfold pruneMap
  rw [List.filterMap_cons]
  dsimp only
  by_cases he : (x.filter (fun ts => decide (ws < ts))).isEmpty = true
  · rw [if_pos he]
    dsimp only
    rw [if_pos he]
  · rw [if_neg he]
    dsimp only
    rw [if_neg he]

/-- With duplicate-free keys (the JS `Map` invariant), looking an
identifier up after the prune pass filters its stored list — or drops
it when the filtered list is empty. -/
theorem lookupAL_pruneMap (ws : Int) (m : List (String × List Int))
    (b : String) (hnd : (m.map Prod.fst).Nodup) :
    lookupAL (pruneMap ws m) b
      = match lookupAL m b with
        | none => none
        | some ts =>
          if (ts.filter (fun s => decide (ws < s))).isEmpty then none
          else some (ts.filter (fun s => decide (ws < s))) := by
  induction m with
  | nil => rfl
  | cons kv rest ih =>
    obtain ⟨k, x⟩ := kv
    simp only [List.map_cons, List.nodup_cons] at hnd
    rw [pruneMap_cons, lookupAL_cons]
    by_cases hk : k = b
    · subst hk
      rw [if_pos rfl]
      by_cases he : (x.filter (fun s => decide (ws < s))).isEmpty = true
      · rw [if_pos he]
        dsimp only
        rw [if_pos he]
        apply lookupAL_none_of_not_mem
        intro hc
        exact hnd.1 (mem_keys_pruneMap ws rest k hc)
      · rw [if_neg he]
        dsimp only
        rw [if_neg he, lookupAL_cons, if_pos rfl]
    · rw [show (if k = b then some x else lookupAL rest b)
          = lookupAL rest b from by rw [if_neg hk]]
      by_cases he : (x.filter (fun s => decide (ws < s))).isEmpty = true
      · rw [if_pos he]
        exact ih hnd.2
      · rw [if_neg he, lookupAL_cons, if_neg hk]
        exact ih hnd.2

/-- The decision of `isAllowed` depends only on the identifier's own
stored timestamps (with duplicate-free keys). -/
theorem isAllowed_fst (rl : RateLimiter) (t : Int) (id : String)
    (hnd : (rl.requests.map Prod.fst).Nodup) :
    (rl.isAllowed t id).1
      = !(decide (rl.maxRequests ≤
          (((lookupAL rl.requests id).getD []).filter
            (fun s => decide (t - rl.windowMs < s))).length)) := by
  unfold RateLimiter.isAllowed
  rw [lookupAL_pruneMap _ _ _ hnd]
  cases hl : lookupAL rl.requests id with
  | none =>
    dsimp only [Option.getD_none]
    split
    · rename_i hcond
      rw [decide_eq_true hcond]
      rfl
    · rename_i hcond
      rw [decide_eq_false hcond]
      rfl
  | some ts =>
    dsimp only [Option.getD_some]
    by_cases he : (ts.filter (fun s => decide (t - rl.windowMs < s))).isEmpty
      = true
    · rw [if_pos he]
      dsimp only [Option.getD_none]
      have hlen0 : (ts.filter
          (fun s => decide (t - rl.windowMs < s))).length = 0 := by
        rw [List.isEmpty_iff] at he
        rw [he]
        rfl
      rw [hlen0]
      split
      · rename_i hcond
        rw [decide_eq_true (by simpa using hcond)]
        rfl
      · rename_i hcond
        rw [decide_eq_false (by simpa using hcond)]
        rfl
    · rw [if_neg he]
      dsimp only [Option.getD_some]
      rw [filter_window_idem]
      split
      · rename_i hcond
        rw [decide_eq_true hcond]
        rfl
      · rename_i hcond
        rw [decide_eq_false hcond]
        rfl

theorem runSeq_cons (rl : RateLimiter) (id : String) (t : Int)
    (ts : List Int) :
    runSeq rl id (t :: ts)
      = ((rl.isAllowed t id).1 :: (runSeq (rl.isAllowed t id).2 id ts).1,
         (runSeq (rl.isAllowed t id).2 id ts).2) := rfl

/-- Full run from the empty limiter: `n` calls, all inside one window,
are all allowed, and the final state stores exactly the call times. -/
theorem runSeq_from_empty (n : Nat) (w : Int) (id : String) (t0 : Int)
    (rest : List Int) (hlen : rest.length + 1 = n)
    (hin : ∀ t ∈ t0 :: rest, t0 ≤ t ∧ t < t0 + w) :
    runSeq ⟨n, w, []⟩ id (t0 :: rest)
      = (List.replicate n true, ⟨n, w, [(id, t0 :: rest)]⟩) := by
  have hw : 0 < w := by
    have := hin t0 (by simp)
    omega
  rw [runSeq_cons]
  rw [isAllowed_empty_true n w id t0 (by omega)]
  dsimp only
  rw [runSeq_invariant n w id rest [t0] t0 (t0 + w - 1) (by simp) (by omega)
    (by
      intro s hs
      rw [List.mem_singleton] at hs
      subst hs
      omega)
    (by
      intro s hs
      have := hin s (by simp [hs])
      omega)
    (by
      simp only [List.length_singleton]
      omega)]
  dsimp only
  rw [← hlen]
  rw [List.replicate_succ]
  rfl

theorem keys_pruneMap_sublist (ws : Int) (m : List (String × List Int)) :
    List.Sublist ((pruneMap ws m).map Prod.fst) (m.map Prod.fst) := by
  induction m with
  | nil => exact List.Sublist.refl _
  | cons kv rest ih =>
    obtain ⟨k, x⟩ := kv
    rw [pruneMap_cons]
    by_cases he : (x.filter (fun ts => decide (ws < ts))).isEmpty = true
    · rw [if_pos he]
      exact List.Sublist.cons _ ih
    · rw [if_neg he]
      exact List.Sublist.cons₂ _ ih

theorem nodup_keys_pruneMap (ws : Int) (m : List (String × List Int))
    (hnd : (m.map Prod.fst).Nodup) :
    ((pruneMap ws m).map Prod.fst).Nodup :=
  List.Nodup.sublist (keys_pruneMap_sublist ws m) hnd

theorem mem_keys_setAL (m : List (String × List Int)) (a : String)
    (v : List Int) (b : String)
    (h : b ∈ (setAL m a v).map Prod.fst) :
    b ∈ m.map Prod.fst ∨ b = a := by
  induction m with
  | nil =>
    right
    simpa [setAL] using h
  | cons kv rest ih =>
    obtain ⟨k, x⟩ := kv
    rw [setAL_cons] at h
    by_cases hk : k = a
    · rw [if_pos hk] at h
      simp only [List.map_cons, List.mem_cons] at h ⊢
      tauto
    · rw [if_neg hk] at h
      simp only [List.map_cons, List.mem_cons] at h ⊢
      rcases h with h | h
      · tauto
      · rcases ih h with h1 | h1 <;> tauto

theorem nodup_keys_setAL (m : List (String × List Int)) (a : String)
    (v : List Int) (hnd : (m.map Prod.fst).Nodup) :
    ((setAL m a v).map Prod.fst).Nodup := by
  induction m with
  | nil => simp [setAL]
  | cons kv rest ih =>
    obtain ⟨k, x⟩ := kv
    simp only [List.map_cons, List.nodup_cons] at hnd
    rw [setAL_cons]
    by_cases hk : k = a
    · rw [if_pos hk]
      simp only [List.map_cons, List.nodup_cons]
      exact hnd
    · rw [if_neg hk]
      simp only [List.map_cons, List.nodup_cons]
      refine ⟨?_, ih hnd.2⟩
      intro hc
      rcases mem_keys_setAL rest a v k hc with h1 | h1
      · exact hnd.1 h1
      · exact hk h1

theorem isAllowed_snd_cases (rl : RateLimiter) (t : Int) (id : String) :
    ∃ v, ((rl.isAllowed t id).2).requests
        = pruneMap (t - rl.windowMs) rl.requests ∨
      ((rl.isAllowed t id).2).requests
        = setAL (pruneMap (t - rl.windowMs) rl.requests) id v := by
  unfold RateLimiter.isAllowed
  split
  · exact ⟨[], Or.inl rfl⟩
  · exact ⟨_, Or.inr rfl⟩

theorem isAllowed_snd_max (rl : RateLimiter) (t : Int) (id : String) :
    ((rl.isAllowed t id).2).maxRequests = rl.maxRequests := by
  unfold RateLimiter.isAllowed
  split <;> rfl

theorem isAllowed_snd_wm (rl : RateLimiter) (t : Int) (id : String) :
    ((rl.isAllowed t id).2).windowMs = rl.windowMs := by
  unfold RateLimiter.isAllowed
  split <;> rfl

/-- Distinct identifiers never share quota: a call for `a` does not
change a later decision for `b` (duplicate-free keys, nondecreasing
clock). -/
theorem isAllowed_independent (rl : RateLimiter) (a b : String)
    (n1 n2 : Int) (hab : a ≠ b) (h12 : n1 ≤ n2)
    (hnd : (rl.requests.map Prod.fst).Nodup) :
    ((rl.isAllowed n1 a).2.isAllowed n2 b).1 = (rl.isAllowed n2 b).1 := by
  obtain ⟨v, hshape⟩ := isAllowed_snd_cases rl n1 a
  have hnd1 : ((pruneMap (n1 - rl.windowMs) rl.requests).map
      Prod.fst).Nodup := nodup_keys_pruneMap _ _ hnd
  have hndS : ((((rl.isAllowed n1 a).2).requests).map Prod.fst).Nodup := by
    rcases hshape with hsh | hsh
    · rw [hsh]; exact hnd1
    · rw [hsh]; exact nodup_keys_setAL _ _ _ hnd1
  rw [isAllowed_fst _ n2 b hndS, isAllowed_fst rl n2 b hnd]
  rw [isAllowed_snd_max, isAllowed_snd_wm]
  have hlook : lookupAL (((rl.isAllowed n1 a).2).requests) b
      = lookupAL (pruneMap (n1 - rl.windowMs) rl.requests) b := by
    rcases hshape with hsh | hsh
    · rw [hsh]
    · rw [hsh, lookupAL_setAL_ne _ _ _ _ hab]
  rw [hlook]
  rw [lookupAL_pruneMap _ _ _ hnd]
  cases hl : lookupAL rl.requests b with
  | none => rfl
  | some ts =>
    dsimp only
    by_cases he : (ts.filter
        (fun s => decide (n1 - rl.windowMs < s))).isEmpty = true
    · rw [if_pos he]
      dsimp only [Option.getD_none, Option.getD_some]
      rw [List.filter_nil]
      rw [← filter_window_mono ts (n1 - rl.windowMs) (n2 - rl.windowMs)
        (by omega)]
      rw [List.isEmpty_iff.mp he]
      rfl
    · rw [if_neg he]
      dsimp only [Option.getD_some]
      rw [filter_window_mono ts (n1 - rl.windowMs) (n2 - rl.windowMs)
        (by omega)]

theorem runSeq_append (rl : RateLimiter) (id : String) (xs ys : List Int) :
    runSeq rl id (xs ++ ys)
      = ((runSeq rl id xs).1 ++ (runSeq (runSeq rl id xs).2 id ys).1,
         (runSeq (runSeq rl id xs).2 id ys).2) := by
  induction xs generalizing rl with
  | nil => rfl
  | cons x xt ih =>
    rw [List.cons_append, runSeq_cons, runSeq_cons, ih]
    rfl

/-! ## Claim C6: the sliding-window rate limiter -/

/-- C6: for `RateLimiter(n, w)` starting fresh — (i) `n` calls to
`isAllowed(id)` whose times all lie within one window all return true;
(ii) an `(n+1)`-th call still inside the window returns false;
(iii) a call made once `w` ms have elapsed from the first call returns
true again; (iv) two distinct identifiers never share quota (a call for
one does not change the other's decision); (v) concretely,
`RateLimiter(3, 1000)` called 4 times synchronously with one identifier
yields `[true, true, true, false]`. -/
theorem C6_rate_limiter_window :
    (∀ (n : Nat) (w : Int) (id : String) (t0 : Int) (rest : List Int),
      rest.length + 1 = n →
      (∀ t ∈ t0 :: rest, t0 ≤ t ∧ t < t0 + w) →
      (runSeq ⟨n, w, []⟩ id (t0 :: rest)).1 = List.replicate n true) ∧
    (∀ (n : Nat) (w : Int) (id : String) (t0 : Int) (rest : List Int)
       (textra : Int),
      rest.length + 1 = n →
      (∀ t ∈ t0 :: rest, t0 ≤ t ∧ t < t0 + w) →
      t0 ≤ textra → textra < t0 + w →
      (((runSeq ⟨n, w, []⟩ id (t0 :: rest)).2).isAllowed textra id).1
        = false) ∧
    (∀ (n : Nat) (w : Int) (id : String) (t0 : Int) (rest : List Int)
       (tlate : Int),
      rest.length + 1 = n →
      (∀ t ∈ t0 :: rest, t0 ≤ t ∧ t < t0 + w) →
      t0 + w ≤ tlate →
      (((runSeq ⟨n, w, []⟩ id (t0 :: rest)).2).isAllowed tlate id).1
        = true) ∧
    (∀ (rl : RateLimiter) (a b : String) (n1 n2 : Int),
      a ≠ b → n1 ≤ n2 → (rl.requests.map Prod.fst).Nodup →
      ((rl.isAllowed n1 a).2.isAllowed n2 b).1 = (rl.isAllowed n2 b).1) ∧
    (∀ t : Int,
      (runSeq ⟨3, 1000, []⟩ "client" [t, t, t, t]).1
        = [true, true, true, false]) := by
  refine ⟨?_, ?_, ?_, ?_, ?_⟩
  · intro n w id t0 rest hlen hin
    rw [runSeq_from_empty n w id t0 rest hlen hin]
  · intro n w id t0 rest textra hlen hin hlo hhi
    rw [runSeq_from_empty n w id t0 rest hlen hin]
    dsimp only
    rw [isAllowed_single_false n w id (t0 :: rest) textra (by simp)
      (by
        intro s hs
        have := hin s hs
        omega)
      (by
        simp only [List.length_cons]
        omega)]
  · intro n w id t0 rest tlate hlen hin hlate
    rw [runSeq_from_empty n w id t0 rest hlen hin]
    dsimp only
    rw [isAllowed_fst _ tlate id (by simp)]
    dsimp only
    rw [lookupAL_single]
    dsimp only [Option.getD_some]
    rw [List.filter_cons_of_neg (by
      intro hc
      have := of_decide_eq_true hc
      have ht0 := hin t0 (by simp)
      omega)]
    have hle := List.length_filter_le
      (fun s => decide (tlate - w < s)) rest
    rw [decide_eq_false (by omega)]
    rfl
  · intro rl a b n1 n2 hab h12 hnd
    exact isAllowed_independent rl a b n1 n2 hab h12 hnd
  · intro t
    rw [show [t, t, t, t] = [t, t, t] ++ [t] from rfl, runSeq_append]
    rw [runSeq_from_empty 3 1000 "client" t [t, t] (by simp)
      (by
        intro s hs
        simp only [List.mem_cons, List.not_mem_nil, or_false] at hs
        rcases hs with rfl | rfl | rfl <;> omega)]
    dsimp only
    rw [runSeq_cons]
    rw [isAllowed_single_false 3 1000 "client" (t :: [t, t]) t (by simp)
      (by
        intro s hs
        simp only [List.mem_cons, List.not_mem_nil, or_false] at hs
        rcases hs with rfl | rfl | rfl <;> omega)
      (by simp)]
    rfl

/-- C6 witness: the five parts applied at concrete limiters. -/
theorem C6_witness :
    (runSeq ⟨2, 5, []⟩ "u" [0, 1]).1 = List.replicate 2 true ∧
    (((runSeq ⟨2, 5, []⟩ "u" [0, 1]).2).isAllowed 2 "u").1 = false ∧
    (((runSeq ⟨2, 5, []⟩ "u" [0, 1]).2).isAllowed 5 "u").1 = true ∧
    ((RateLimiter.isAllowed ⟨1, 10, []⟩ 0 "x").2.isAllowed 0 "y").1
      = (RateLimiter.isAllowed ⟨1, 10, []⟩ 0 "y").1 ∧
    (runSeq ⟨3, 1000, []⟩ "client" [42, 42, 42, 42]).1
      = [true, true, true, false] := by
  refine ⟨C6_rate_limiter_window.1 2 5 "u" 0 [1] (by decide) (by decide),
    C6_rate_limiter_window.2.1 2 5 "u" 0 [1] 2 (by decide) (by decide)
      (by decide) (by decide),
    C6_rate_limiter_window.2.2.1 2 5 "u" 0 [1] 5 (by decide) (by decide)
      (by decide),
    C6_rate_limiter_window.2.2.2.1 ⟨1, 10, []⟩ "x" "y" 0 0 (by decide)
      (by decide) (by decide),
    C6_rate_limiter_window.2.2.2.2 42⟩

/-! ## Claim C9: the retained-timestamp invariant -/

/-- C9: after a call to `isAllowed` at clock reading `now` (with a
nonnegative window, and all previously stored timestamps no later than
`now` — the monotone-clock assumption), every retained timestamp of
every identifier lies within `[now - windowMs, now]`. -/
theorem C9_retained_timestamps_in_window (rl : RateLimiter) (now : Int)
    (id : String) (hw : 0 ≤ rl.windowMs)
    (hpast : ∀ kv ∈ rl.requests, ∀ s ∈ kv.2, s ≤ now) :
    ∀ kv ∈ ((rl.isAllowed now id).2).requests, ∀ s ∈ kv.2,
      now - rl.windowMs ≤ s ∧ s ≤ now := by
  intro kv hkv s hs
  unfold RateLimiter.isAllowed at hkv
  split at hkv
  · dsimp only at hkv
    obtain ⟨x, hx, rfl⟩ := mem_pruneMap _ _ _ hkv
    dsimp only at hs
    rw [List.mem_filter] at hs
    have h1 := of_decide_eq_true hs.2
    have h2 := hpast x hx s hs.1
    omega
  · dsimp only at hkv
    rcases mem_setAL _ _ _ _ hkv with hk1 | hk2
    · obtain ⟨x, hx, rfl⟩ := mem_pruneMap _ _ _ hk1
      dsimp only at hs
      rw [List.mem_filter] at hs
      have h1 := of_decide_eq_true hs.2
      have h2 := hpast x hx s hs.1
      omega
    · rw [hk2] at hs
      dsimp only at hs
      rcases List.mem_append.mp hs with hv | hnow
      · rw [List.mem_filter] at hv
        have h1 := of_decide_eq_true hv.2
        have h2 : s ≤ now := by
          rcases hlook : lookupAL
              (pruneMap (now - rl.windowMs) rl.requests) id with - | ts
          · rw [hlook] at hv
            exact absurd hv.1 (by simp)
          · rw [hlook] at hv
            dsimp only [Option.getD_some] at hv
            obtain ⟨x, hx, hxe⟩ := mem_pruneMap _ _ _
              (lookupAL_mem _ _ _ hlook)
            have hts : ts = x.2.filter
                (fun t => decide (now - rl.windowMs < t)) :=
              congrArg Prod.snd hxe
            rw [hts] at hv
            rw [List.mem_filter] at hv
            exact hpast x hx s hv.1.1
        omega
      · rw [List.mem_singleton.mp hnow]
        omega

/-- C9 witness: the invariant applied at a concrete limiter call. -/
theorem C9_witness : (5 : Int) - 10 ≤ 3 ∧ (3 : Int) ≤ 5 := by
  exact C9_retained_timestamps_in_window ⟨1, 10, [("a", [3])]⟩ 5 "a"
    (by decide) (by decide) ("a", [3]) (by decide) 3 (by decide)
